import Mathlib

/-!
# Verification of the document-reference reconciliation subsystem

Shallow embedding of the insurance-brokerage backend's document path
handling: staging uploads (`temp-*` namespaces), promotion of staged files
to a permanent client namespace, the drift scan (`/diagnostic/check-documents`),
the repair executor (`/api/repair-all-documents`), the temp-file fixer
(`/api/fix-temp-document`) and per-document deletion
(`DELETE /:id/documents/:documentType`).

Reference paths are modelled as `List Char` (the wire strings), the
filesystem as a list of directories plus an association list from physical
paths to file contents, and the record store as a list of client records
with one optional stored path per document slot.
-/

namespace Brokerage

/-- A path (or any wire string) is modelled as its character list. -/
abbrev Path := List Char

/-- Boolean prefix test on character lists (JS `String.startsWith` and the
anchored part of regex matching). -/
def isPre : Path → Path → Bool
  | [], _ => true
  | _ :: _, [] => false
  | a :: as, b :: bs => a = b && isPre as bs

/-- No character of the list is a slash: the string is a single path segment. -/
def noSlash (p : Path) : Bool := p.all (fun c => ¬ c = '/')

/-- JS `String.includes`: the needle occurs as a substring of the haystack. -/
def containsSub (needle : Path) : Path → Bool
  | [] => isPre needle []
  | c :: rest => isPre needle (c :: rest) || containsSub needle rest

/-- First occurrence index semantics of JS `String.prototype.replace` with a
plain-string pattern: replace the leftmost occurrence of `pat` by `rep`,
leave the string unchanged when `pat` does not occur. -/
def replaceFirst : Path → Path → Path → Path
  | [], pat, rep => if isPre pat [] then rep else []
  | c :: rest, pat, rep =>
    if isPre pat (c :: rest) then rep ++ (c :: rest).drop pat.length
    else c :: replaceFirst rest pat rep

/-- Split a string at its last slash: `some (before, after)` with `after`
slash-free, `none` when the string has no slash. -/
def lastSplit (p : Path) : Option (Path × Path) :=
  match p.reverse.dropWhile (fun c => ¬ c = '/') with
  | [] => none
  | _ :: before =>
    some (before.reverse, (p.reverse.takeWhile (fun c => ¬ c = '/')).reverse)

/-- Split a string at its first slash. -/
def firstSplit (p : Path) : Option (Path × Path) :=
  match p.dropWhile (fun c => ¬ c = '/') with
  | [] => none
  | _ :: b => some (p.takeWhile (fun c => ¬ c = '/'), b)

/-- JS `path.join(__dirname, '../../', p)` modulo the fixed root: the physical
path relative to the project root, i.e. `p` with its leading slashes removed. -/
def stripSlash (p : Path) : Path := p.dropWhile (fun c => c = '/')

/-- The literal `/uploads/documents/` (the canonical root marker, 19 chars). -/
def rootLit : Path := "/uploads/documents/".data

/-- The literal `/uploads/documents/temp-` that both temp-path regexes must
find (24 chars). -/
def tempRootLit : Path := "/uploads/documents/temp-".data

/-- The literal `temp-` used by the scan's `includes('temp-')` test. -/
def tempLit : Path := "temp-".data

/-- The literal `/documents/` tested by the missing-prefix branch. -/
def docsLit : Path := "/documents/".data

/-- The literal `/uploads` prepended by the missing-prefix fix. -/
def uploadsLit : Path := "/uploads".data

/-- Physical directory of a namespace: `uploads/documents/<ns>`. -/
def nsDir (ns : Path) : Path := "uploads/documents/".data ++ ns

/-- Physical path of a file in a namespace: `uploads/documents/<ns>/<fn>`. -/
def nsFile (ns fn : Path) : Path := nsDir ns ++ '/' :: fn

/-- Character class `[a-f0-9-]` of the repair endpoint's temp-id regex. -/
def isHexDash (c : Char) : Bool :=
  (('a' ≤ c && c ≤ 'f') || ('0' ≤ c && c ≤ '9') || c = '-')

/-- Search inside the part of the path before its last slash for an occurrence
of `/uploads/documents/temp-` followed by a non-empty run of characters from
`cls` reaching the end (i.e. reaching the last slash of the whole string).
Returns that run. This is the substring search both temp-path regexes
perform; the run is unique when found because the literal cannot overlap
itself, so returning the leftmost hit is faithful. -/
def tempSegSearch (cls : Char → Bool) : Path → Option Path
  | [] => none
  | c :: rest =>
    let tail := (c :: rest).drop 24
    if isPre tempRootLit (c :: rest) && !tail.isEmpty && tail.all cls then
      some tail
    else tempSegSearch cls rest

/-- The scan endpoint's regex `\/uploads\/documents\/temp-[^\/]+\/([^\/]+)$`:
returns the captured filename when the path matches. -/
def scanTempMatch (p : Path) : Option Path :=
  match lastSplit p with
  | none => none
  | some (before, fname) =>
    if fname.isEmpty then none
    else
      match tempSegSearch (fun c => ¬ c = '/') before with
      | some _ => some fname
      | none => none

/-- The repair endpoint's regex
`\/uploads\/documents\/(temp-[a-f0-9-]+)\/([^\/]+)$`: returns the captured
temp namespace id (including the `temp-`) and the filename. -/
def repairTempMatch (p : Path) : Option (Path × Path) :=
  match lastSplit p with
  | none => none
  | some (before, fname) =>
    if fname.isEmpty then none
    else
      match tempSegSearch isHexDash before with
      | some seg => some (tempLit ++ seg, fname)
      | none => none

/-- Modelled from the spec: the Canonical Path Codec's `decode`
(spec sections 4.1 and 6). The source builds and rewrites paths inline and has
no named codec, so the decoder of the canonical three-segment wire format
`/uploads/documents/<namespaceId>/<filename>` is taken from the spec's words:
both the namespace id and the filename must be non-empty single segments. -/
def decodeCanonical (p : Path) : Option (Path × Path) :=
  if isPre rootLit p then
    match firstSplit (p.drop 19) with
    | some (ns, fn) =>
      if !ns.isEmpty && !fn.isEmpty && noSlash fn then some (ns, fn) else none
    | none => none
  else none

/-! ## Filesystem model

Directories and files under the project root. File paths and directory paths
are physical (no leading slash). Contents are strings. -/

structure FS where
  dirs : List Path
  files : List (Path × Path)
deriving DecidableEq

/-- The physical paths of all existing files. -/
def FS.filePaths (fs : FS) : List Path := fs.files.map Prod.fst

/-- `fs.existsSync p`: true when `p` names an existing directory or file. -/
def FS.existsP (fs : FS) (p : Path) : Bool :=
  fs.dirs.any (fun d => d = p) || fs.files.any (fun q => q.1 = p)

/-- `fs.mkdirSync(p, {recursive:true})` (only the directory itself is
recorded; no caller inspects intermediate ancestors). -/
def FS.mkdir (fs : FS) (p : Path) : FS := { fs with dirs := p :: fs.dirs }

/-- `fs.writeFileSync(p, c)`: create or overwrite. -/
def FS.write (fs : FS) (p c : Path) : FS :=
  { fs with files := (p, c) :: fs.files.filter (fun q => ¬ q.1 = p) }

/-- Content of the file at `p`, if any. -/
def FS.read (fs : FS) (p : Path) : Option Path :=
  (fs.files.find? (fun q => q.1 = p)).map Prod.snd

/-- `fs.copyFileSync(src, dst)`. -/
def FS.copy (fs : FS) (src dst : Path) : FS :=
  match fs.read src with
  | none => fs
  | some c => fs.write dst c

/-- `fs.unlinkSync p`: remove the file at `p`. -/
def FS.unlink (fs : FS) (p : Path) : FS :=
  { fs with files := fs.files.filter (fun q => ¬ q.1 = p) }

/-- `fs.rmSync(d, {recursive:true, force:true})`: remove the directory `d`
and everything strictly below it. -/
def FS.rmRec (fs : FS) (d : Path) : FS :=
  { dirs := fs.dirs.filter (fun q => !(decide (q = d) || isPre (d ++ ['/']) q)),
    files := fs.files.filter
      (fun q => !(decide (q.1 = d) || isPre (d ++ ['/']) q.1)) }

/-- `fs.renameSync(a, b)` on a directory: the directory and everything below
it move from `a` to `b`. -/
def renamePath (a b p : Path) : Path :=
  if isPre (a ++ ['/']) p then (b ++ ['/']) ++ p.drop (a.length + 1)
  else if p = a then b else p

def FS.renameDir (fs : FS) (a b : Path) : FS :=
  { dirs := fs.dirs.map (renamePath a b),
    files := fs.files.map (fun q => (renamePath a b q.1, q.2)) }

/-- Names of the files directly inside directory `d` (`fs.readdirSync`). -/
def FS.readdirFiles (fs : FS) (d : Path) : List Path :=
  (fs.files.filter
    (fun q => isPre (d ++ ['/']) q.1 && noSlash (q.1.drop (d.length + 1)))).map
    (fun q => q.1.drop (d.length + 1))

/-! ## Record store model -/

/-- The ten enumerated document slots (`documentFields` in the source). -/
inductive DocField
  | coverage_proof | sum_insured_proof | policy_fee_invoice
  | vat_debit_note | payment_receipt | nic_proof
  | dob_proof | business_registration_proof | svat_proof | vat_proof
deriving DecidableEq, Repr

/-- The iteration order used by the scan and repair loops. -/
def documentFields : List DocField :=
  [.coverage_proof, .sum_insured_proof, .policy_fee_invoice,
   .vat_debit_note, .payment_receipt, .nic_proof,
   .dob_proof, .business_registration_proof, .svat_proof, .vat_proof]

/-- A client row: its id and one optional stored path per document slot. -/
structure ClientRec where
  id : Path
  slots : DocField → Option Path

/-- JS truthiness of an optional string: `undefined`/`null` and the empty
string are falsy. -/
def truthy : Option Path → Option Path
  | none => none
  | some [] => none
  | some p => some p

/-- `SELECT * FROM clients WHERE id = ?` then `rows[0]`. -/
def getById (db : List ClientRec) (id : Path) : Option ClientRec :=
  db.find? (fun c => c.id = id)

/-- Apply a slot-update map to one record (`UPDATE ... SET f = v ...`). -/
def applyUpd (r : ClientRec) (us : List (DocField × Option Path)) : ClientRec :=
  us.foldl (fun r fv =>
    { r with slots := fun g => if g = fv.1 then fv.2 else r.slots g }) r

/-- `Client.update(id, data)`: update every row whose id matches. -/
def dbUpdate (db : List ClientRec) (id : Path)
    (us : List (DocField × Option Path)) : List ClientRec :=
  db.map (fun r => if r.id = id then applyUpd r us else r)

/-- Whole system state: filesystem plus record store. -/
structure Sys where
  fs : FS
  db : List ClientRec

/-! ## Failure oracle and error messages

The source wraps the per-item filesystem writes and record-store writes in
`try`/`catch`; the oracle decides which of those calls throw. -/

structure Oracle where
  updateFails : Path → List (DocField × Option Path) → Bool
  writeFails : Path → Bool
  copyFails : Path → Path → Bool

def noFailOracle : Oracle :=
  ⟨fun _ _ => false, fun _ => false, fun _ _ => false⟩

/-- The error strings pushed into `results.errors`, abstracted by shape. -/
inductive ErrMsg
  | noId
  | copyErr (src dst : Path)
  | updateErr (id : Path)
  | writeErr (p : Path)
deriving DecidableEq, Repr

/-! ## Drift scan: `POST /diagnostic/check-documents` (clients router) -/

structure ScanAcc where
  fs : FS
  db : List ClientRec
  checkedDocuments : Nat
  missingFiles : Nat
  tempFiles : Nat
  fixedPaths : Nat
  errors : List ErrMsg

/-- Record-store write-back of one fixed temp path inside the scan loop. -/
def scanTempUpdate (o : Oracle) (clientId : Path) (acc : ScanAcc)
    (f : DocField) (fname : Path) : ScanAcc :=
  if o.updateFails clientId [(f, some (rootLit ++ clientId ++ '/' :: fname))]
  then { acc with errors := acc.errors ++ [.updateErr clientId] }
  else
    { acc with
      db := dbUpdate acc.db clientId
        [(f, some (rootLit ++ clientId ++ '/' :: fname))],
      fixedPaths := acc.fixedPaths + 1 }

/-- File copy plus write-back of one fixed temp path inside the scan loop. -/
def scanTempCopy (o : Oracle) (clientId : Path) (acc : ScanAcc) (f : DocField)
    (p fname : Path) : ScanAcc :=
  if o.copyFails (stripSlash p) (nsFile clientId fname) then
    { acc with errors :=
        acc.errors ++ [.copyErr (stripSlash p) (nsFile clientId fname)] }
  else
    scanTempUpdate o clientId
      { acc with fs := acc.fs.copy (stripSlash p) (nsFile clientId fname) }
      f fname

/-- Handling of one regex-matching temp path inside the scan loop: when the
staging file exists, ensure the permanent directory, copy the file and
rewrite the slot; otherwise record a missing temp file. -/
def scanTempFix (o : Oracle) (clientId : Path) (acc : ScanAcc) (f : DocField)
    (p fname : Path) : ScanAcc :=
  if acc.fs.existsP (stripSlash p) then
    scanTempCopy o clientId
      (if acc.fs.existsP (nsDir clientId) then acc
       else { acc with fs := acc.fs.mkdir (nsDir clientId) }) f p fname
  else { acc with missingFiles := acc.missingFiles + 1 }

/-- One document field of one client inside the scan loop. For a temp path
whose staging file exists the scan copies the file into the client's
namespace and rewrites the slot; otherwise it only classifies. -/
def scanField (o : Oracle) (clientId : Path) (acc : ScanAcc) (f : DocField)
    (v : Option Path) : ScanAcc :=
  match truthy v with
  | none => acc
  | some p =>
    if containsSub tempLit p then
      match scanTempMatch p with
      | none =>
        { acc with checkedDocuments := acc.checkedDocuments + 1,
                   tempFiles := acc.tempFiles + 1 }
      | some fname =>
        scanTempFix o clientId
          { acc with checkedDocuments := acc.checkedDocuments + 1,
                     tempFiles := acc.tempFiles + 1 } f p fname
    else
      if acc.fs.existsP (stripSlash p) then
        { acc with checkedDocuments := acc.checkedDocuments + 1 }
      else
        { acc with checkedDocuments := acc.checkedDocuments + 1,
                   missingFiles := acc.missingFiles + 1 }

/-- One client of the scan loop: report clients without an id, ensure the
client's namespace directory exists, then check each document field. -/
def scanClient (o : Oracle) (acc : ScanAcc) (c : ClientRec) : ScanAcc :=
  if c.id.isEmpty then { acc with errors := acc.errors ++ [.noId] }
  else
    let acc :=
      if acc.fs.existsP (nsDir c.id) then acc
      else { acc with fs := acc.fs.mkdir (nsDir c.id) }
    documentFields.foldl (fun a f => scanField o c.id a f (c.slots f)) acc

structure ScanResult where
  totalClients : Nat
  checkedDocuments : Nat
  missingFiles : Nat
  tempFiles : Nat
  fixedPaths : Nat
  errors : List ErrMsg
deriving DecidableEq, Repr

/-- `POST /diagnostic/check-documents`: iterate the snapshot of all clients. -/
def checkDocuments (o : Oracle) (s : Sys) : Sys × ScanResult :=
  let acc := s.db.foldl (scanClient o) ⟨s.fs, s.db, 0, 0, 0, 0, []⟩
  (⟨acc.fs, acc.db⟩,
   ⟨s.db.length, acc.checkedDocuments, acc.missingFiles, acc.tempFiles,
    acc.fixedPaths, acc.errors⟩)

/-! ## Repair executor: `GET /api/repair-all-documents` (server.ts) -/

structure RepAcc where
  fs : FS
  db : List ClientRec
  fixedPaths : Nat
  createdDirectories : Nat
  errors : List ErrMsg

/-- The exact content the repair endpoint writes for a missing staging
file: unambiguously marked as a placeholder. -/
def placeholderLit : Path := "Document placeholder created by repair tool".data

/-- Placeholder handling for a temp-shaped path whose staging directory has
been ensured: when the staging file is absent, write the marked placeholder
and count it in `fixedPaths`. -/
def repairPlaceholder (o : Oracle) (acc : RepAcc) (tid fname : Path) :
    RepAcc :=
  if acc.fs.existsP (nsFile tid fname) then acc
  else if o.writeFails (nsFile tid fname) then
    { acc with errors := acc.errors ++ [.writeErr (nsFile tid fname)] }
  else
    { acc with fs := acc.fs.write (nsFile tid fname) placeholderLit,
               fixedPaths := acc.fixedPaths + 1 }

/-- Temp-path handling of the repair loop: ensure the staging directory
exists (counting a created directory), then the placeholder step. -/
def repairTemp (o : Oracle) (acc : RepAcc) (tid fname : Path) : RepAcc :=
  repairPlaceholder o
    (if acc.fs.existsP (nsDir tid) then acc
     else { acc with fs := acc.fs.mkdir (nsDir tid),
                     createdDirectories := acc.createdDirectories + 1 })
    tid fname

/-- One document field of one client inside the repair loop, also threading
the pending update map for this client. A temp-shaped path gets its staging
directory ensured and, when the staging file is absent, a marked placeholder
file written (counted in `fixedPaths` but never touching the stored path);
a path missing the `/uploads` prefix is queued for rewriting. -/
def repairField (o : Oracle) (f : DocField) (v : Option Path)
    (st : RepAcc × List (DocField × Option Path)) :
    RepAcc × List (DocField × Option Path) :=
  match truthy v with
  | none => st
  | some p =>
    match repairTempMatch p with
    | some (tempId, fname) => (repairTemp o st.1 tempId fname, st.2)
    | none =>
      if isPre docsLit p && !isPre rootLit p then
        ({ st.1 with fixedPaths := st.1.fixedPaths + 1 },
         st.2 ++ [(f, some (uploadsLit ++ p))])
      else st

/-- The update-map contribution of one field; depends only on the slot
value, never on the filesystem. -/
def upsOf1 (f : DocField) (v : Option Path) : List (DocField × Option Path) :=
  match truthy v with
  | none => []
  | some p =>
    match repairTempMatch p with
    | some _ => []
    | none =>
      if isPre docsLit p && !isPre rootLit p then
        [(f, some (uploadsLit ++ p))]
      else []

/-- The update map the repair loop accumulates for one client. -/
def repairUps (c : ClientRec) : List (DocField × Option Path) :=
  documentFields.foldl (fun ups f => ups ++ upsOf1 f (c.slots f)) []

/-- Write-back of the queued path fixes of one client in a single
record-store update; a write failure becomes an error entry. -/
def repairFinish (o : Oracle) (cid : Path)
    (st : RepAcc × List (DocField × Option Path)) : RepAcc :=
  if st.2.isEmpty then st.1
  else if o.updateFails cid st.2 then
    { st.1 with errors := st.1.errors ++ [.updateErr cid] }
  else { st.1 with db := dbUpdate st.1.db cid st.2 }

/-- One client of the repair loop: skip records without an id, ensure the
client's namespace directory, process each field, then write back the
queued path fixes. -/
def repairClient (o : Oracle) (acc : RepAcc) (c : ClientRec) : RepAcc :=
  if c.id.isEmpty then acc
  else
    repairFinish o c.id
      (documentFields.foldl (fun st f => repairField o f (c.slots f) st)
        ((if acc.fs.existsP (nsDir c.id) then acc
          else { acc with fs := acc.fs.mkdir (nsDir c.id),
                          createdDirectories := acc.createdDirectories + 1 }),
         []))

structure RepResult where
  fixedPaths : Nat
  createdDirectories : Nat
  errors : List ErrMsg
deriving DecidableEq, Repr

/-- `GET /api/repair-all-documents`: iterate the snapshot of all clients. -/
def repairRun (o : Oracle) (s : Sys) : RepAcc :=
  s.db.foldl (repairClient o) ⟨s.fs, s.db, 0, 0, []⟩

def repairAllDocuments (o : Oracle) (s : Sys) : Sys × RepResult :=
  (⟨(repairRun o s).fs, (repairRun o s).db⟩,
   ⟨(repairRun o s).fixedPaths, (repairRun o s).createdDirectories,
    (repairRun o s).errors⟩)

/-! ## `GET /api/fix-temp-document` (server.ts) -/

inductive FixTempStatus
  | tempDirNotFound | noFiles | done (copied : Nat)
deriving DecidableEq, Repr

/-- One file copy of the temp-fix loop; a per-file copy failure is recorded
(in the source, in `fileDetails`) and the loop continues. -/
def fixTempStep (o : Oracle) (tempDir clientDir : Path) (st : FS × Nat)
    (n : Path) : FS × Nat :=
  if o.copyFails (tempDir ++ '/' :: n) (clientDir ++ '/' :: n) then st
  else (st.1.copy (tempDir ++ '/' :: n) (clientDir ++ '/' :: n), st.2 + 1)

/-- The copy loop of the temp-fix endpoint, after the directory checks. -/
def fixTempGo (o : Oracle) (fs : FS) (db : List ClientRec)
    (tempId clientId : Path) : Sys × FixTempStatus :=
  if (fs.readdirFiles (nsDir tempId)).isEmpty then (⟨fs, db⟩, .noFiles)
  else
    (⟨((fs.readdirFiles (nsDir tempId)).foldl
        (fixTempStep o (nsDir tempId) (nsDir clientId)) (fs, 0)).1, db⟩,
     .done ((fs.readdirFiles (nsDir tempId)).foldl
        (fixTempStep o (nsDir tempId) (nsDir clientId)) (fs, 0)).2)

/-- Copy every file of the staging directory into the client directory,
never removing the originals. -/
def fixTempDocument (o : Oracle) (s : Sys) (tempId clientId : Path) :
    Sys × FixTempStatus :=
  if ¬ s.fs.existsP (nsDir tempId) then (s, .tempDirNotFound)
  else
    fixTempGo o
      (if s.fs.existsP (nsDir clientId) then s.fs
       else s.fs.mkdir (nsDir clientId)) s.db tempId clientId

/-! ## Promotion: core of `POST /with-documents` (clients router) -/

structure PromoteRes where
  allFilesUpdated : Bool
  failedSlots : List DocField

/-- The stored path written into the new record for an uploaded file before
promotion: `/uploads/documents/<tempId>/<filename>`. -/
def stagedPath (tempId fn : Path) : Path := rootLit ++ tempId ++ '/' :: fn

/-- The record created by `Client.create` with the staged document paths. -/
def promoteRec0 (tempId clientId : Path) (files : List (DocField × Path)) :
    ClientRec :=
  ⟨clientId, fun f => (files.find? (fun q => q.1 = f)).map
    (fun q => stagedPath tempId q.2)⟩

/-- The filesystem part of the promotion: ensure the parent directory,
purge a pre-existing client directory, then rename the staging directory
onto the client directory. -/
def promoteFS (fs : FS) (tempId clientId : Path) : FS :=
  let fs :=
    if fs.existsP "uploads/documents".data then fs
    else fs.mkdir "uploads/documents".data
  let fs := if fs.existsP (nsDir clientId) then fs.rmRec (nsDir clientId) else fs
  fs.renameDir (nsDir tempId) (nsDir clientId)

/-- The rewritten slot map: `oldPath.replace(tempClientId, clientId)` per
affected slot. -/
def promoteUpd (tempId clientId : Path) (files : List (DocField × Path)) :
    List (DocField × Path) :=
  files.map (fun q =>
    (q.1, replaceFirst (stagedPath tempId q.2) tempId clientId))

/-- Core of `POST /with-documents` after multer stored the uploads in the
staging directory `temp-<tok>`: create the record with staged paths, then
(when the staging directory exists) purge any pre-existing client directory,
rename the staging directory onto it, rewrite each affected slot by
substituting the staging id with the client id, verify each rewritten path
and write the rewritten map back. Nothing is rolled back on a failed
verification. -/
def promoteCore (s : Sys) (tok clientId : Path)
    (files : List (DocField × Path)) : Sys × PromoteRes :=
  let tempId := tempLit ++ tok
  let db := s.db ++ [promoteRec0 tempId clientId files]
  if s.fs.existsP (nsDir tempId) then
    let fs := promoteFS s.fs tempId clientId
    let upd := promoteUpd tempId clientId files
    let allOk := upd.all (fun q => fs.existsP (stripSlash q.2))
    let failed := (upd.filter (fun q => ¬ fs.existsP (stripSlash q.2))).map Prod.fst
    let db := dbUpdate db clientId (upd.map (fun q => (q.1, some q.2)))
    (⟨fs, db⟩, ⟨allOk, failed⟩)
  else (⟨s.fs, db⟩, ⟨true, []⟩)

/-! ## Stored-path builders of the three upload operations -/

/-- `POST /with-documents` (create): `/uploads/documents/<tempId>/<filename>`
(line building `relativePath` from the temp client id). -/
def createWithDocsStoredPath (tempId fn : Path) : Path := stagedPath tempId fn

/-- `PUT /:id/with-documents` (update): the recorded path is
`/uploads/documents/<filename>` with no namespace segment. -/
def updateWithDocsStoredPath (fn : Path) : Path := rootLit ++ fn

/-- `POST /:id/documents` (single upload): `/uploads/documents/<id>/<filename>`. -/
def singleDocStoredPath (id fn : Path) : Path := rootLit ++ id ++ '/' :: fn

/-- The multer destination directory: uploads land under
`uploads/documents/<id>` (the request's client id, or the temp id). -/
def multerDestDir (id : Path) : Path := nsDir id

/-! ## Document deletion: `DELETE /:id/documents/:documentType` -/

inductive DelRes
  | clientNotFound | docNotFound | ok
deriving DecidableEq, Repr

/-- Delete one document slot: 404 when the client is missing or the slot is
null/empty (no state change in either case); otherwise unlink the backing
file when present, then null the slot. -/
def deleteDocument (s : Sys) (id : Path) (f : DocField) : Sys × DelRes :=
  match getById s.db id with
  | none => (s, .clientNotFound)
  | some c =>
    match truthy (c.slots f) with
    | none => (s, .docNotFound)
    | some p =>
      let fs :=
        if s.fs.existsP (stripSlash p) then s.fs.unlink (stripSlash p) else s.fs
      (⟨fs, dbUpdate s.db id [(f, none)]⟩, .ok)

/-! ## Concrete states used by counterexamples and witnesses -/

/-- A client whose only populated slot is `f`. -/
def oneSlotClient (id : Path) (f : DocField) (p : Path) : ClientRec :=
  ⟨id, fun g => if g = f then some p else none⟩

/-- One client referencing a staging path whose staging file exists. -/
def sysScanFix : Sys :=
  ⟨⟨[nsDir "temp-ab".data],
    [(nsFile "temp-ab".data "nic_proof-1.pdf".data, "CONTENT".data)]⟩,
   [oneSlotClient "C1".data .nic_proof
      "/uploads/documents/temp-ab/nic_proof-1.pdf".data]⟩

/-- One client referencing a staging path whose staging file is absent. -/
def sysMissingTemp : Sys :=
  ⟨⟨[], []⟩,
   [oneSlotClient "C1".data .nic_proof "/uploads/documents/temp-ab/doc.pdf".data]⟩

/-- One client whose stored path misses the `/uploads` prefix and has a
staging-shaped namespace: the chained-repair counterexample. -/
def sysChained : Sys :=
  ⟨⟨[], []⟩,
   [oneSlotClient "C1".data .nic_proof "/documents/temp-ab/doc.pdf".data]⟩

/-! ## Counterexample theorems -/

/-- Claim C2, counterexample: the drift scan is not read-only. On a state
with one client whose `nic_proof` slot references a staging path and whose
staging file exists, running the scan rewrites the slot's storedPath to the
permanent namespace and creates a copy of the file there, so the scan both
modifies a client record and copies a file. -/
theorem scan_mutates_state_cex :
    ((checkDocuments noFailOracle sysScanFix).1.db.map
        (fun c => c.slots .nic_proof)) =
      [some ("/uploads/documents/C1/nic_proof-1.pdf".data)]
    ∧ (sysScanFix.db.map (fun c => c.slots .nic_proof)) =
      [some ("/uploads/documents/temp-ab/nic_proof-1.pdf".data)]
    ∧ (checkDocuments noFailOracle sysScanFix).1.fs.read
        (nsFile "C1".data "nic_proof-1.pdf".data) = some "CONTENT".data
    ∧ sysScanFix.fs.read (nsFile "C1".data "nic_proof-1.pdf".data) = none := by
  decide

/-- Claim C3, counterexample: on a missing-temp-file drift record the repair
endpoint writes the marked placeholder, leaves the stored path unchanged —
and increments `fixedPaths` to 1 for exactly that placeholder substitution,
contradicting the claim that `fixedPaths` is not incremented. -/
theorem placeholder_counted_cex :
    (repairAllDocuments noFailOracle sysMissingTemp).2.fixedPaths = 1
    ∧ ((repairAllDocuments noFailOracle sysMissingTemp).1.db.map
        (fun c => c.slots .nic_proof)) =
      [some ("/uploads/documents/temp-ab/doc.pdf".data)]
    ∧ (repairAllDocuments noFailOracle sysMissingTemp).1.fs.read
        (nsFile "temp-ab".data "doc.pdf".data) =
      some "Document placeholder created by repair tool".data := by
  decide

/-- Claim C4, counterexample: repair is not idempotent. Starting from one
client whose stored path misses the `/uploads` prefix and is staging-shaped
(`/documents/temp-ab/doc.pdf`), the first run only rewrites the prefix;
the second run then matches the temp-path rule, creates the staging
directory and a placeholder file, and reports `fixedPaths = 1`, not 0. -/
theorem repair_not_idempotent_cex :
    (repairAllDocuments noFailOracle
        (repairAllDocuments noFailOracle sysChained).1).2.fixedPaths = 1
    ∧ (repairAllDocuments noFailOracle
        (repairAllDocuments noFailOracle sysChained).1).1.fs ≠
      (repairAllDocuments noFailOracle sysChained).1.fs := by
  decide

/-- Claim C8: the create-with-documents and single-document upload paths are
canonical three-segment references, but `PUT /:id/with-documents` records
`/uploads/documents/<filename>` with no namespace segment — it does not
decode, and it does not point at the multer storage location
`uploads/documents/<id>/<filename>` where the uploaded file was written. -/
theorem update_with_documents_path_bug :
    (decodeCanonical
      (createWithDocsStoredPath "temp-ab".data "nic_proof-ab12.pdf".data)) =
      some ("temp-ab".data, "nic_proof-ab12.pdf".data)
    ∧ (decodeCanonical
        (singleDocStoredPath "C123".data "nic_proof-ab12.pdf".data)) =
      some ("C123".data, "nic_proof-ab12.pdf".data)
    ∧ decodeCanonical (updateWithDocsStoredPath "nic_proof-ab12.pdf".data) = none
    ∧ stripSlash (updateWithDocsStoredPath "nic_proof-ab12.pdf".data) ≠
      multerDestDir "C123".data ++ '/' :: "nic_proof-ab12.pdf".data := by
  decide

/-! ## Helper lemmas: prefixes and segments -/

theorem isPre_self_append (x y : Path) : isPre x (x ++ y) = true := by
  induction x with
  | nil => rfl
  | cons c cs ih => simp [isPre, ih]

theorem isPre_cancel (x y z : Path) : isPre (x ++ y) (x ++ z) = isPre y z := by
  induction x with
  | nil => rfl
  | cons c cs ih => simp [isPre, ih]

theorem isPre_iff (x y : Path) : isPre x y = true ↔ ∃ z, y = x ++ z := by
  induction x generalizing y with
  | nil => simp [isPre]
  | cons c cs ih =>
    cases y with
    | nil => simp [isPre]
    | cons d ds =>
      simp only [isPre, Bool.and_eq_true, decide_eq_true_eq, ih]
      constructor
      · rintro ⟨rfl, z, rfl⟩; exact ⟨z, rfl⟩
      · rintro ⟨z, hz⟩
        rcases List.cons_eq_cons.mp hz with ⟨rfl, rfl⟩
        exact ⟨rfl, z, rfl⟩

/-- Two slash-free segments followed by a slash: a prefix relation between
the two composite strings forces the segments to be equal. -/
theorem seg_eq_of_isPre (a b u v : Path) (ha : noSlash a = true)
    (hb : noSlash b = true)
    (h : isPre (a ++ '/' :: u) (b ++ '/' :: v) = true) : a = b := by
  induction a generalizing b with
  | nil =>
    cases b with
    | nil => rfl
    | cons d ds =>
      exfalso
      simp only [List.nil_append, List.cons_append, isPre, Bool.and_eq_true,
        decide_eq_true_eq] at h
      have : d ≠ '/' := by
        simp only [noSlash, List.all_cons, Bool.and_eq_true,
          decide_eq_true_eq] at hb
        exact hb.1
      exact this h.1.symm
  | cons c cs ih =>
    cases b with
    | nil =>
      exfalso
      simp only [List.nil_append, List.cons_append, isPre, Bool.and_eq_true,
        decide_eq_true_eq] at h
      have : c ≠ '/' := by
        simp only [noSlash, List.all_cons, Bool.and_eq_true,
          decide_eq_true_eq] at ha
        exact ha.1
      exact this h.1
    | cons d ds =>
      simp only [List.cons_append, isPre, Bool.and_eq_true,
        decide_eq_true_eq] at h
      simp only [noSlash, List.all_cons, Bool.and_eq_true] at ha hb
      have := ih ds ha.2 hb.2 h.2
      rw [h.1, this]

theorem noSlash_append (a b : Path) (ha : noSlash a = true)
    (hb : noSlash b = true) : noSlash (a ++ b) = true := by
  simp only [noSlash, List.all_append, Bool.and_eq_true]
  exact ⟨ha, hb⟩

/-- A slash-free string never equals a string containing an explicit slash. -/
theorem ne_of_noSlash (a : Path) (t u : Path) (ha : noSlash a = true) :
    t ++ '/' :: u ≠ a := by
  intro h
  have : '/' ∈ a := by
    rw [← h]
    exact List.mem_append_right t (List.mem_cons_self _ _)
  simp only [noSlash, List.all_eq_true, decide_eq_true_eq] at ha
  exact ha '/' this rfl

/-! ## Helper lemmas: replaceFirst on staged paths -/

/-- `teSafe x`: no occurrence of a string starting with `te` can begin inside
`x` (including an occurrence crossing the right boundary of `x`). -/
def teHeadOk (c : Char) (rest : Path) : Bool :=
  if c = 't' then
    match rest with
    | [] => false
    | d :: _ => ¬ d = 'e'
  else true

def teSafe : Path → Bool
  | [] => true
  | c :: rest => teHeadOk c rest && teSafe rest

theorem replaceFirst_te (x : Path) (y tok rep : Path)
    (hx : teSafe x = true) :
    replaceFirst (x ++ y) ('t' :: 'e' :: tok) rep =
      x ++ replaceFirst y ('t' :: 'e' :: tok) rep := by
  induction x with
  | nil => rfl
  | cons c cs ih =>
    rw [show teSafe (c :: cs) = (teHeadOk c cs && teSafe cs) from rfl,
        Bool.and_eq_true] at hx
    have hcond : isPre ('t' :: 'e' :: tok) (c :: (cs ++ y)) = false := by
      by_cases hc : c = 't'
      · subst hc
        rw [teHeadOk.eq_def, if_pos rfl] at hx
        cases cs with
        | nil => exact absurd hx.1 (by simp)
        | cons d ds =>
          by_cases hd : d = 'e'
          · subst hd; exact absurd hx.1 (by simp)
          · simp only [List.cons_append, isPre]
            have : (decide ('e' = d)) = false := by
              simp only [decide_eq_false_iff_not]
              exact fun h => hd h.symm
            simp [this]
      · simp only [isPre]
        have : (decide ('t' = c)) = false := by
          simp only [decide_eq_false_iff_not]
          exact fun h => hc h.symm
        simp [this]
    show replaceFirst (c :: (cs ++ y)) ('t' :: 'e' :: tok) rep = _
    rw [replaceFirst, if_neg (by simp [hcond]), ih hx.2]
    rfl

theorem replaceFirst_head (pat y rep : Path) (h : pat ≠ []) :
    replaceFirst (pat ++ y) pat rep = rep ++ y := by
  cases pat with
  | nil => exact absurd rfl h
  | cons c cs =>
    show replaceFirst (c :: (cs ++ y)) (c :: cs) rep = rep ++ y
    rw [replaceFirst, if_pos]
    · congr 1
      have : (c :: (cs ++ y)) = (c :: cs) ++ y := rfl
      rw [this, List.drop_left]
    · have : (c :: (cs ++ y)) = (c :: cs) ++ y := rfl
      rw [this, isPre_self_append]

theorem tempLit_cons : tempLit = 't' :: 'e' :: 'm' :: 'p' :: '-' :: [] := rfl

theorem teSafe_rootLit : teSafe rootLit = true := by decide

/-- The promotion's `oldPath.replace(tempClientId, clientId)` on a staged
path substitutes exactly the namespace segment and leaves the filename
unchanged. -/
theorem replaceFirst_stagedPath (tok cid fn : Path) :
    replaceFirst (stagedPath (tempLit ++ tok) fn) (tempLit ++ tok) cid =
      rootLit ++ cid ++ '/' :: fn := by
  have h1 : stagedPath (tempLit ++ tok) fn =
      rootLit ++ ((tempLit ++ tok) ++ '/' :: fn) := by
    simp [stagedPath, List.append_assoc]
  have h2 : tempLit ++ tok = 't' :: 'e' :: ('m' :: 'p' :: '-' :: tok) := by
    rw [tempLit_cons]; rfl
  rw [h1, h2, replaceFirst_te _ _ _ _ teSafe_rootLit, ← h2,
    replaceFirst_head _ _ _ (by rw [h2]; simp), List.append_assoc]

/-! ## Helper lemmas: physical paths and the codec -/

theorem stripSlash_root (x : Path) :
    stripSlash (rootLit ++ x) = "uploads/documents/".data ++ x := rfl

theorem nsFile_eq (ns fn : Path) :
    nsFile ns fn = "uploads/documents/".data ++ (ns ++ '/' :: fn) := by
  simp [nsFile, nsDir, List.append_assoc]

theorem stripSlash_canonical (ns fn : Path) :
    stripSlash (rootLit ++ ns ++ '/' :: fn) = nsFile ns fn := by
  rw [List.append_assoc, stripSlash_root, nsFile_eq]

theorem takeWhile_seg (p : Char → Bool) (a : Path) (c : Char) (rest : Path)
    (ha : a.all p = true) (hc : p c = false) :
    (a ++ c :: rest).takeWhile p = a ∧ (a ++ c :: rest).dropWhile p = c :: rest := by
  induction a with
  | nil => simp [List.takeWhile, List.dropWhile, hc]
  | cons d ds ih =>
    simp only [List.all_cons, Bool.and_eq_true] at ha
    rw [List.cons_append]
    constructor
    · rw [List.takeWhile, ha.1, (ih ha.2).1]
    · rw [List.dropWhile, ha.1]
      exact (ih ha.2).2

theorem firstSplit_seg (ns fn : Path) (hns : noSlash ns = true) :
    firstSplit (ns ++ '/' :: fn) = some (ns, fn) := by
  have h := takeWhile_seg (fun c => ¬ c = '/') ns '/' fn
    (by simpa [noSlash] using hns) (by simp)
  rw [firstSplit, h.2, h.1]

theorem rootLit_length : rootLit.length = 19 := by decide

/-- Decoding a well-formed canonical path recovers its namespace and
filename. -/
theorem decodeCanonical_encode (ns fn : Path) (hns0 : ns ≠ [])
    (hns : noSlash ns = true) (hfn0 : fn ≠ []) (hfn : noSlash fn = true) :
    decodeCanonical (rootLit ++ ns ++ '/' :: fn) = some (ns, fn) := by
  rw [List.append_assoc]
  have hpre : isPre rootLit (rootLit ++ (ns ++ '/' :: fn)) = true :=
    isPre_self_append _ _
  have hdrop : (rootLit ++ (ns ++ '/' :: fn)).drop 19 = ns ++ '/' :: fn := by
    rw [← rootLit_length, List.drop_left]
  have h1 : ns.isEmpty = false := by
    cases ns
    · exact absurd rfl hns0
    · rfl
  have h2 : fn.isEmpty = false := by
    cases fn
    · exact absurd rfl hfn0
    · rfl
  rw [decodeCanonical, if_pos hpre, hdrop, firstSplit_seg ns fn hns]
  simp [h1, h2, hfn]

/-! ## Helper lemmas: filesystem operations -/

theorem existsP_of_dir_mem (fs : FS) (d : Path) (h : d ∈ fs.dirs) :
    fs.existsP d = true := by
  simp only [FS.existsP, Bool.or_eq_true, List.any_eq_true]
  exact Or.inl ⟨d, h, by simp⟩

theorem existsP_of_file_mem (fs : FS) (q : Path × Path) (h : q ∈ fs.files) :
    fs.existsP q.1 = true := by
  simp only [FS.existsP, Bool.or_eq_true, List.any_eq_true]
  exact Or.inr ⟨q, h, by simp⟩

theorem existsP_mkdir_of (fs : FS) (d p : Path) (h : fs.existsP p = true) :
    (fs.mkdir d).existsP p = true := by
  simp only [FS.existsP, FS.mkdir, Bool.or_eq_true, List.any_eq_true] at h ⊢
  rcases h with ⟨x, hx, he⟩ | h
  · exact Or.inl ⟨x, List.mem_cons_of_mem _ hx, he⟩
  · exact Or.inr h

theorem mkdir_files (fs : FS) (d : Path) : (fs.mkdir d).files = fs.files := rfl

theorem write_files_mem_of (fs : FS) (p c : Path) (q : Path × Path)
    (h : q ∈ fs.files) (hne : ¬ q.1 = p) : q ∈ (fs.write p c).files := by
  simp only [FS.write]
  exact List.mem_cons_of_mem _ (List.mem_filter.mpr ⟨h, by simp [hne]⟩)

theorem existsP_write_of (fs : FS) (p c : Path) (q : Path)
    (h : fs.existsP q = true) : (fs.write p c).existsP q = true := by
  simp only [FS.existsP, FS.write, Bool.or_eq_true, List.any_eq_true] at h ⊢
  rcases h with h | ⟨x, hx, he⟩
  · exact Or.inl h
  · by_cases hq : x.1 = p
    · refine Or.inr ⟨(p, c), List.mem_cons_self _ _, ?_⟩
      simp only [decide_eq_true_eq] at he ⊢
      rw [← he, hq]
    · exact Or.inr ⟨x, List.mem_cons_of_mem _ (List.mem_filter.mpr
        ⟨hx, by simp [hq]⟩), he⟩

theorem read_write_self (fs : FS) (p c : Path) :
    (fs.write p c).read p = some c := by
  simp [FS.read, FS.write, List.find?_cons]

theorem find?_filter_ne (l : List (Path × Path)) (p q : Path) (h : ¬ q = p) :
    (l.filter (fun x => ¬ x.1 = p)).find? (fun x => x.1 = q) =
      l.find? (fun x => x.1 = q) := by
  induction l with
  | nil => rfl
  | cons a as ih =>
    by_cases ha : a.1 = p
    · have haq : ¬ (decide (a.1 = q)) = true := by
        simp only [decide_eq_true_eq]
        rw [ha]; exact fun hh => h hh.symm
      rw [List.filter_cons_of_neg (by simp [ha]), ih,
        List.find?_cons_of_neg as haq]
    · by_cases hq : a.1 = q
      · rw [List.filter_cons_of_pos (by simp [ha]),
          List.find?_cons_of_pos _ (by simp [hq]),
          List.find?_cons_of_pos as (by simp [hq])]
      · rw [List.filter_cons_of_pos (by simp [ha]),
          List.find?_cons_of_neg _ (by simp [hq]),
          List.find?_cons_of_neg as (by simp [hq]), ih]

theorem read_write_other (fs : FS) (p c q : Path) (h : ¬ q = p) :
    (fs.write p c).read q = fs.read q := by
  have hpc : ¬ (decide (((p, c) : Path × Path).1 = q)) = true := by
    simp only [decide_eq_true_eq]
    exact fun hh => h hh.symm
  show (((fs.write p c).files).find? (fun x => x.1 = q)).map Prod.snd =
    ((fs.files.find? (fun x => x.1 = q)).map Prod.snd)
  have h1 : List.find? (fun x => x.1 = q)
      ((p, c) :: fs.files.filter (fun x => ¬ x.1 = p)) =
      List.find? (fun x => x.1 = q) (fs.files.filter (fun x => ¬ x.1 = p)) :=
    List.find?_cons_of_neg _ hpc
  rw [show (fs.write p c).files =
      (p, c) :: fs.files.filter (fun x => ¬ x.1 = p) from rfl,
    h1, find?_filter_ne fs.files p q h]

theorem copy_read_src (fs : FS) (src dst : Path) :
    (fs.copy src dst).read src = fs.read src := by
  rw [FS.copy]
  cases h : fs.read src with
  | none => exact h
  | some c =>
    show (fs.write dst c).read src = some c
    by_cases he : src = dst
    · subst he; rw [read_write_self]
    · rw [read_write_other _ _ _ _ he]; exact h

theorem copy_read_dst (fs : FS) (src dst c : Path) (h : fs.read src = some c) :
    (fs.copy src dst).read dst = some c := by
  rw [FS.copy, h, read_write_self]

theorem existsP_copy_of (fs : FS) (src dst q : Path)
    (h : fs.existsP q = true) : (fs.copy src dst).existsP q = true := by
  rw [FS.copy]
  cases fs.read src with
  | none => exact h
  | some c => exact existsP_write_of _ _ _ _ h

/-- Path-level frame: any write-only operation keeps every existing path. -/
theorem filePaths_write_mem (fs : FS) (p c q : Path)
    (h : q ∈ fs.filePaths) : q ∈ (fs.write p c).filePaths := by
  simp only [FS.filePaths, List.mem_map] at h
  obtain ⟨x, hx, rfl⟩ := h
  by_cases hq : x.1 = p
  · exact List.mem_map.mpr ⟨(p, c), List.mem_cons_self _ _, by simp [hq]⟩
  · exact List.mem_map.mpr ⟨x, List.mem_cons_of_mem _
      (List.mem_filter.mpr ⟨hx, by simp [hq]⟩), rfl⟩

theorem filePaths_copy_mem (fs : FS) (src dst q : Path)
    (h : q ∈ fs.filePaths) : q ∈ (fs.copy src dst).filePaths := by
  rw [FS.copy]
  cases fs.read src with
  | none => exact h
  | some c => exact filePaths_write_mem _ _ _ _ h

/-! ## Helper lemmas: rename and purge -/

theorem renamePath_moves (a b r : Path) :
    renamePath a b (a ++ '/' :: r) = b ++ '/' :: r := by
  have h1 : a ++ '/' :: r = (a ++ ['/']) ++ r := by simp
  have hp : isPre (a ++ ['/']) (a ++ '/' :: r) = true := by
    rw [h1]; exact isPre_self_append _ _
  have hd : (a ++ '/' :: r).drop (a.length + 1) = r := by
    rw [h1, show a.length + 1 = (a ++ ['/']).length by simp, List.drop_left]
  rw [renamePath, if_pos hp, hd]
  simp

theorem renameDir_files (fs : FS) (a b : Path) :
    (fs.renameDir a b).files = fs.files.map (fun q => (renamePath a b q.1, q.2)) :=
  rfl

theorem rmRec_files_mem (fs : FS) (d : Path) (q : Path × Path) :
    q ∈ (fs.rmRec d).files ↔
      q ∈ fs.files ∧ ¬ q.1 = d ∧ isPre (d ++ ['/']) q.1 = false := by
  simp only [FS.rmRec, List.mem_filter, Bool.not_eq_true', Bool.or_eq_false_iff,
    decide_eq_false_iff_not, and_assoc]

/-! ## Helper lemmas: record updates -/

theorem applyUpd_id (r : ClientRec) (us : List (DocField × Option Path)) :
    (applyUpd r us).id = r.id := by
  induction us generalizing r with
  | nil => rfl
  | cons u rest ih => exact ih _

theorem applyUpd_slots_not_mem (r : ClientRec)
    (us : List (DocField × Option Path)) (f : DocField)
    (h : f ∉ us.map Prod.fst) : (applyUpd r us).slots f = r.slots f := by
  induction us generalizing r with
  | nil => rfl
  | cons u rest ih =>
    simp only [List.map_cons, List.mem_cons, not_or] at h
    have hstep : applyUpd r (u :: rest) =
        applyUpd ⟨r.id, fun g => if g = u.1 then u.2 else r.slots g⟩ rest := rfl
    rw [hstep, ih _ h.2]
    simp [h.1]

theorem applyUpd_slots_mem (r : ClientRec)
    (us : List (DocField × Option Path)) (f : DocField) (v : Option Path)
    (hnd : (us.map Prod.fst).Nodup) (hm : (f, v) ∈ us) :
    (applyUpd r us).slots f = v := by
  induction us generalizing r with
  | nil => cases hm
  | cons u rest ih =>
    simp only [List.map_cons, List.nodup_cons] at hnd
    rcases List.mem_cons.mp hm with rfl | hm'
    · have hstep : applyUpd r ((f, v) :: rest) =
          applyUpd ⟨r.id, fun g => if g = f then v else r.slots g⟩ rest := rfl
      rw [hstep, applyUpd_slots_not_mem _ _ _ hnd.1]
      simp
    · have hstep : applyUpd r (u :: rest) =
          applyUpd ⟨r.id, fun g => if g = u.1 then u.2 else r.slots g⟩ rest := rfl
      rw [hstep, ih _ hnd.2 hm']

/-! ## Helper lemmas: the promotion pipeline -/

theorem docsBase : nsDir = fun ns => "uploads/documents/".data ++ ns := rfl

/-- A staging file path is not the client directory itself. -/
theorem nsPath_ne_nsDir (a b rest : Path) (hb : noSlash b = true) :
    ¬ nsDir a ++ '/' :: rest = nsDir b := by
  intro h
  rw [docsBase] at h
  simp only [List.append_assoc] at h
  exact ne_of_noSlash b a rest hb (List.append_cancel_left h)

/-- A path below namespace `a` is not below namespace `b` when `a ≠ b`. -/
theorem nsPath_not_under (a b rest : Path) (ha : noSlash a = true)
    (hb : noSlash b = true) (hne : ¬ a = b) :
    isPre (nsDir b ++ ['/']) (nsDir a ++ '/' :: rest) = false := by
  rw [Bool.eq_false_iff]
  intro h
  rw [docsBase] at h
  simp only [List.append_assoc] at h
  rw [isPre_cancel] at h
  have : b ++ ['/'] = b ++ '/' :: ([] : Path) := rfl
  rw [this] at h
  exact hne (seg_eq_of_isPre b a [] rest hb ha h).symm

theorem promoteFS_files_mem_of (fs : FS) (tempId cid rest γ : Path)
    (hTid : noSlash tempId = true) (hCid : noSlash cid = true)
    (hNe : ¬ tempId = cid)
    (hm : (nsDir tempId ++ '/' :: rest, γ) ∈ fs.files) :
    (nsDir cid ++ '/' :: rest, γ) ∈ (promoteFS fs tempId cid).files := by
  rw [promoteFS]
  set fs1 := if fs.existsP "uploads/documents".data then fs
    else fs.mkdir "uploads/documents".data with hfs1
  have h1 : fs1.files = fs.files := by
    rw [hfs1]; split <;> rfl
  have hm1 : (nsDir tempId ++ '/' :: rest, γ) ∈ fs1.files := by rw [h1]; exact hm
  set fs2 := if fs1.existsP (nsDir cid) then fs1.rmRec (nsDir cid) else fs1
    with hfs2
  have hm2 : (nsDir tempId ++ '/' :: rest, γ) ∈ fs2.files := by
    rw [hfs2]
    split
    · exact (rmRec_files_mem _ _ _).mpr
        ⟨hm1, nsPath_ne_nsDir tempId cid rest hCid,
         nsPath_not_under tempId cid rest hTid hCid hNe⟩
    · exact hm1
  have := List.mem_map_of_mem
    (fun q : Path × Path => (renamePath (nsDir tempId) (nsDir cid) q.1, q.2)) hm2
  rw [renameDir_files]
  simpa [renamePath_moves] using this

theorem promoteFS_files_mem_iff (fs : FS) (tempId cid rest γ : Path)
    (hTid : noSlash tempId = true) (hCid : noSlash cid = true)
    (hNe : ¬ tempId = cid) (hC : fs.existsP (nsDir cid) = true) :
    ((nsDir cid ++ '/' :: rest, γ) ∈ (promoteFS fs tempId cid).files ↔
      (nsDir tempId ++ '/' :: rest, γ) ∈ fs.files) := by
  constructor
  · intro h
    rw [promoteFS] at h
    set fs1 := if fs.existsP "uploads/documents".data then fs
      else fs.mkdir "uploads/documents".data with hfs1
    have h1 : fs1.files = fs.files := by
      rw [hfs1]; split <;> rfl
    have hC1 : fs1.existsP (nsDir cid) = true := by
      rw [hfs1]; split
      · exact hC
      · exact existsP_mkdir_of _ _ _ hC
    rw [if_pos hC1, renameDir_files] at h
    obtain ⟨q, hq, heq⟩ := List.mem_map.mp h
    have hq' := (rmRec_files_mem _ _ _).mp hq
    obtain ⟨hqf, hqd, hqp⟩ := hq'
    have hγ : q.2 = γ := congrArg Prod.snd heq
    have hp : renamePath (nsDir tempId) (nsDir cid) q.1 =
        nsDir cid ++ '/' :: rest := congrArg Prod.fst heq
    rw [renamePath] at hp
    by_cases hc1 : isPre (nsDir tempId ++ ['/']) q.1 = true
    · rw [if_pos hc1] at hp
      obtain ⟨z, hz⟩ := (isPre_iff _ _).mp hc1
      have hzdrop : q.1.drop (nsDir tempId).length.succ = z := by
        rw [hz, show (nsDir tempId).length.succ =
          (nsDir tempId ++ ['/']).length by simp, List.drop_left]
      rw [hzdrop] at hp
      have : nsDir cid ++ ['/'] ++ z = nsDir cid ++ ['/'] ++ rest := by
        rw [hp]; simp
      have hzr : z = rest := List.append_cancel_left this
      have : q = (nsDir tempId ++ '/' :: rest, γ) := by
        have : q.1 = nsDir tempId ++ '/' :: rest := by
          rw [hz, hzr]; simp
        exact Prod.ext this hγ
      rw [← this]
      rw [← h1]; exact hqf
    · rw [if_neg hc1] at hp
      by_cases hc2 : q.1 = nsDir tempId
      · rw [if_pos hc2] at hp
        exfalso
        have := congrArg List.length hp
        simp at this
      · rw [if_neg hc2] at hp
        exfalso
        rw [Bool.eq_false_iff] at hqp
        apply hqp
        rw [hp, show nsDir cid ++ '/' :: rest = (nsDir cid ++ ['/']) ++ rest
          by simp]
        exact isPre_self_append _ _
  · exact promoteFS_files_mem_of fs tempId cid rest γ hTid hCid hNe

/-- Unfolding of `promoteCore` when the staging directory exists. -/
theorem promoteCore_pos (s : Sys) (tok cid : Path)
    (files : List (DocField × Path))
    (h : s.fs.existsP (nsDir (tempLit ++ tok)) = true) :
    promoteCore s tok cid files =
      (⟨promoteFS s.fs (tempLit ++ tok) cid,
        dbUpdate (s.db ++ [promoteRec0 (tempLit ++ tok) cid files]) cid
          ((promoteUpd (tempLit ++ tok) cid files).map
            (fun q => (q.1, some q.2)))⟩,
       ⟨(promoteUpd (tempLit ++ tok) cid files).all
          (fun q => (promoteFS s.fs (tempLit ++ tok) cid).existsP
            (stripSlash q.2)),
        ((promoteUpd (tempLit ++ tok) cid files).filter
          (fun q => ¬ (promoteFS s.fs (tempLit ++ tok) cid).existsP
            (stripSlash q.2))).map Prod.fst⟩) := by
  rw [promoteCore]
  simp only [h, if_true]

/-- The well-formedness package shared by the promotion theorems. -/
theorem tempId_props (tok cid : Path) (hTok : noSlash tok = true)
    (hStag : isPre tempLit cid = false) :
    noSlash (tempLit ++ tok) = true ∧ ¬ (tempLit ++ tok) = cid := by
  refine ⟨noSlash_append _ _ (by decide) hTok, fun h => ?_⟩
  rw [← h, isPre_self_append] at hStag
  cases hStag

/-- Looking up the freshly promoted record after the write-back. -/
theorem promote_getById (db0 : List ClientRec) (cid : Path)
    (rec0 : ClientRec) (hid : rec0.id = cid)
    (us : List (DocField × Option Path))
    (hFresh : ∀ c ∈ db0, ¬ c.id = cid) :
    getById (dbUpdate (db0 ++ [rec0]) cid us) cid = some (applyUpd rec0 us) := by
  rw [getById, dbUpdate, List.map_append]
  rw [List.find?_append]
  have h1 : (db0.map (fun r => if r.id = cid then applyUpd r us else r)).find?
      (fun c => c.id = cid) = none := by
    rw [List.find?_eq_none]
    intro x hx
    obtain ⟨r, hr, rfl⟩ := List.mem_map.mp hx
    rw [if_neg (hFresh r hr)]
    simp [hFresh r hr]
  rw [h1, Option.none_or]
  have h2 : (List.map (fun r => if r.id = cid then applyUpd r us else r) [rec0]) =
      [applyUpd rec0 us] := by
    simp [hid]
  rw [h2]
  rw [List.find?_cons_of_pos _ (by simp [applyUpd_id, hid])]

/-- The field map of the rewritten update list is that of the upload list. -/
theorem promoteUpd_fst (tempId cid : Path) (files : List (DocField × Path)) :
    ((promoteUpd tempId cid files).map (fun q => (q.1, some q.2))).map Prod.fst =
      files.map Prod.fst := by
  simp [promoteUpd, List.map_map, Function.comp]

/-! ## Promotion claims -/

/-- Claim C1: promotion correctness. For a staging namespace `temp-<tok>`
containing the uploaded file `fn₀` of slot `f₀`, promotion rewrites the
slot's stored path by substituting the staging namespace id with the client
id (filename unchanged), the rewritten path decodes to the permanent
namespace, and the file then exists at the permanent location with its
original content. -/
theorem promote_rewrites_and_relocates
    (s : Sys) (tok cid fn₀ γ : Path) (f₀ : DocField)
    (files : List (DocField × Path))
    (hTok : noSlash tok = true) (hCid : noSlash cid = true) (hCid0 : cid ≠ [])
    (hStag : isPre tempLit cid = false)
    (hFn : noSlash fn₀ = true) (hFn0 : fn₀ ≠ [])
    (hMem : (f₀, fn₀) ∈ files) (hNd : (files.map Prod.fst).Nodup)
    (hFresh : ∀ c ∈ s.db, ¬ c.id = cid)
    (hDir : nsDir (tempLit ++ tok) ∈ s.fs.dirs)
    (hFile : (nsFile (tempLit ++ tok) fn₀, γ) ∈ s.fs.files) :
    (∃ c, getById (promoteCore s tok cid files).1.db cid = some c ∧
      c.slots f₀ = some (rootLit ++ cid ++ '/' :: fn₀)) ∧
    decodeCanonical (rootLit ++ cid ++ '/' :: fn₀) = some (cid, fn₀) ∧
    (nsFile cid fn₀, γ) ∈ (promoteCore s tok cid files).1.fs.files := by
  have hT : s.fs.existsP (nsDir (tempLit ++ tok)) = true :=
    existsP_of_dir_mem _ _ hDir
  obtain ⟨hTid, hNe⟩ := tempId_props tok cid hTok hStag
  rw [promoteCore_pos s tok cid files hT]
  refine ⟨⟨applyUpd (promoteRec0 (tempLit ++ tok) cid files)
      ((promoteUpd (tempLit ++ tok) cid files).map (fun q => (q.1, some q.2))),
      ?_, ?_⟩, ?_, ?_⟩
  · exact promote_getById s.db cid _ rfl _ hFresh
  · apply applyUpd_slots_mem
    · rw [promoteUpd_fst]; exact hNd
    · have h1 : (f₀, replaceFirst (stagedPath (tempLit ++ tok) fn₀)
          (tempLit ++ tok) cid) ∈ promoteUpd (tempLit ++ tok) cid files :=
        List.mem_map_of_mem _ hMem
      have h2 := List.mem_map_of_mem
        (fun q : DocField × Path => (q.1, some q.2)) h1
      rw [replaceFirst_stagedPath] at h2
      exact h2
  · exact decodeCanonical_encode cid fn₀ hCid0 hCid hFn0 hFn
  · exact promoteFS_files_mem_of s.fs (tempLit ++ tok) cid fn₀ γ hTid hCid hNe
      hFile

def sysPromote : Sys :=
  ⟨⟨[nsDir "temp-t1".data],
    [(nsFile "temp-t1".data "nic_proof-ab12.pdf".data, "NICC".data)]⟩, []⟩

theorem promote_rewrites_and_relocates_witness :
    (∃ c, getById (promoteCore sysPromote "t1".data "C123".data
        [(DocField.nic_proof, "nic_proof-ab12.pdf".data)]).1.db "C123".data =
          some c ∧
      c.slots DocField.nic_proof =
        some (rootLit ++ "C123".data ++ '/' :: "nic_proof-ab12.pdf".data)) ∧
    decodeCanonical (rootLit ++ "C123".data ++ '/' :: "nic_proof-ab12.pdf".data) =
      some ("C123".data, "nic_proof-ab12.pdf".data) ∧
    (nsFile "C123".data "nic_proof-ab12.pdf".data, "NICC".data) ∈
      (promoteCore sysPromote "t1".data "C123".data
        [(DocField.nic_proof, "nic_proof-ab12.pdf".data)]).1.fs.files :=
  promote_rewrites_and_relocates sysPromote "t1".data "C123".data
    "nic_proof-ab12.pdf".data "NICC".data DocField.nic_proof
    [(DocField.nic_proof, "nic_proof-ab12.pdf".data)]
    (by decide) (by decide) (by decide) (by decide) (by decide) (by decide)
    (by decide) (by decide) (fun c hc => absurd hc (List.not_mem_nil c))
    (by decide) (by decide)

/-- Claim C6: when the permanent namespace directory already exists (and the
staging directory exists so promotion proceeds), the promotion purges it and
replaces its contents with exactly the staging directory's contents: a file
sits under the permanent namespace after promotion iff the same relative
file with the same content sat under the staging namespace before — never a
merge with the pre-existing contents. -/
theorem promote_purges_existing_dir
    (s : Sys) (tok cid rest γ : Path) (files : List (DocField × Path))
    (hTok : noSlash tok = true) (hCid : noSlash cid = true)
    (hStag : isPre tempLit cid = false)
    (hT : s.fs.existsP (nsDir (tempLit ++ tok)) = true)
    (hC : s.fs.existsP (nsDir cid) = true) :
    ((nsDir cid ++ '/' :: rest, γ) ∈ (promoteCore s tok cid files).1.fs.files ↔
      (nsDir (tempLit ++ tok) ++ '/' :: rest, γ) ∈ s.fs.files) := by
  obtain ⟨hTid, hNe⟩ := tempId_props tok cid hTok hStag
  rw [promoteCore_pos s tok cid files hT]
  exact promoteFS_files_mem_iff s.fs _ cid rest γ hTid hCid hNe hC

def sysPromoteMerge : Sys :=
  ⟨⟨[nsDir "temp-t1".data, nsDir "C123".data],
    [(nsFile "temp-t1".data "nic_proof-ab12.pdf".data, "NEW".data),
     (nsFile "C123".data "old.pdf".data, "OLD".data)]⟩, []⟩

theorem promote_purges_existing_dir_witness :
    ((nsDir "C123".data ++ '/' :: "old.pdf".data, "OLD".data) ∈
        (promoteCore sysPromoteMerge "t1".data "C123".data []).1.fs.files ↔
      (nsDir "temp-t1".data ++ '/' :: "old.pdf".data, "OLD".data) ∈
        sysPromoteMerge.fs.files) :=
  promote_purges_existing_dir sysPromoteMerge "t1".data "C123".data
    "old.pdf".data "OLD".data [] (by decide) (by decide) (by decide)
    (by decide) (by decide)

/-- Claim C7: when a rewritten path fails filesystem verification, the
result's `allFilesUpdated` is `false` and the slot is recorded as failed,
while nothing is rolled back: the record still receives the rewritten
stored path and the files relocated from the staging directory stay at
their new permanent locations. -/
theorem promote_verify_failure_no_rollback
    (s : Sys) (tok cid fn₀ : Path) (f₀ : DocField)
    (files : List (DocField × Path))
    (hTok : noSlash tok = true) (hCid : noSlash cid = true)
    (hStag : isPre tempLit cid = false)
    (hMem : (f₀, fn₀) ∈ files) (hNd : (files.map Prod.fst).Nodup)
    (hFresh : ∀ c ∈ s.db, ¬ c.id = cid)
    (hT : s.fs.existsP (nsDir (tempLit ++ tok)) = true)
    (hMiss : (promoteFS s.fs (tempLit ++ tok) cid).existsP (nsFile cid fn₀) =
      false) :
    (promoteCore s tok cid files).2.allFilesUpdated = false ∧
    f₀ ∈ (promoteCore s tok cid files).2.failedSlots ∧
    (∃ c, getById (promoteCore s tok cid files).1.db cid = some c ∧
      c.slots f₀ = some (rootLit ++ cid ++ '/' :: fn₀)) ∧
    (∀ rest γ, (nsDir (tempLit ++ tok) ++ '/' :: rest, γ) ∈ s.fs.files →
      (nsDir cid ++ '/' :: rest, γ) ∈ (promoteCore s tok cid files).1.fs.files)
    := by
  obtain ⟨hTid, hNe⟩ := tempId_props tok cid hTok hStag
  have h1 : (f₀, replaceFirst (stagedPath (tempLit ++ tok) fn₀)
      (tempLit ++ tok) cid) ∈ promoteUpd (tempLit ++ tok) cid files :=
    List.mem_map_of_mem _ hMem
  have hrw : replaceFirst (stagedPath (tempLit ++ tok) fn₀)
      (tempLit ++ tok) cid = rootLit ++ cid ++ '/' :: fn₀ :=
    replaceFirst_stagedPath tok cid fn₀
  have hstrip : stripSlash (replaceFirst (stagedPath (tempLit ++ tok) fn₀)
      (tempLit ++ tok) cid) = nsFile cid fn₀ := by
    rw [hrw, stripSlash_canonical]
  rw [promoteCore_pos s tok cid files hT]
  refine ⟨?_, ?_, ⟨applyUpd (promoteRec0 (tempLit ++ tok) cid files)
      ((promoteUpd (tempLit ++ tok) cid files).map (fun q => (q.1, some q.2))),
      ?_, ?_⟩, ?_⟩
  · rw [Bool.eq_false_iff]
    intro hc
    have := (List.all_eq_true.mp hc) _ h1
    simp only [hstrip] at this
    rw [this] at hMiss
    cases hMiss
  · refine List.mem_map_of_mem Prod.fst (List.mem_filter.mpr ⟨h1, ?_⟩)
    simp only [hstrip, hMiss]
    decide
  · exact promote_getById s.db cid _ rfl _ hFresh
  · apply applyUpd_slots_mem
    · rw [promoteUpd_fst]; exact hNd
    · have h2 := List.mem_map_of_mem
        (fun q : DocField × Path => (q.1, some q.2)) h1
      rw [hrw] at h2
      exact h2
  · intro rest γ hm
    exact promoteFS_files_mem_of s.fs (tempLit ++ tok) cid rest γ hTid hCid hNe
      hm

def sysPromoteFail : Sys := ⟨⟨[nsDir "temp-t1".data], []⟩, []⟩

theorem promote_verify_failure_no_rollback_witness :
    (promoteCore sysPromoteFail "t1".data "C123".data
      [(DocField.nic_proof, "nic_proof-ab12.pdf".data)]).2.allFilesUpdated =
        false ∧
    DocField.nic_proof ∈ (promoteCore sysPromoteFail "t1".data "C123".data
      [(DocField.nic_proof, "nic_proof-ab12.pdf".data)]).2.failedSlots ∧
    (∃ c, getById (promoteCore sysPromoteFail "t1".data "C123".data
        [(DocField.nic_proof, "nic_proof-ab12.pdf".data)]).1.db "C123".data =
          some c ∧
      c.slots DocField.nic_proof =
        some (rootLit ++ "C123".data ++ '/' :: "nic_proof-ab12.pdf".data)) ∧
    (∀ rest γ, (nsDir ("temp-".data ++ "t1".data) ++ '/' :: rest, γ) ∈
        sysPromoteFail.fs.files →
      (nsDir "C123".data ++ '/' :: rest, γ) ∈
        (promoteCore sysPromoteFail "t1".data "C123".data
          [(DocField.nic_proof, "nic_proof-ab12.pdf".data)]).1.fs.files) :=
  promote_verify_failure_no_rollback sysPromoteFail "t1".data "C123".data
    "nic_proof-ab12.pdf".data DocField.nic_proof
    [(DocField.nic_proof, "nic_proof-ab12.pdf".data)]
    (by decide) (by decide) (by decide) (by decide) (by decide)
    (fun c hc => absurd hc (List.not_mem_nil c)) (by decide) (by decide)

/-! ## Deletion claim -/

/-- Claim C10: deleting a document of an existing client whose slot is
null/empty returns the not-found result and leaves the whole state — record
store and filesystem — unchanged; only when the slot holds a path is the
backing file unlinked (when present) and every matching record's slot then
set to null with an ok result. -/
theorem delete_document_empty_slot (s : Sys) (id : Path) (f : DocField)
    (c : ClientRec) (hc : getById s.db id = some c) :
    (truthy (c.slots f) = none → deleteDocument s id f = (s, .docNotFound)) ∧
    (∀ p, truthy (c.slots f) = some p →
      deleteDocument s id f =
        (⟨if s.fs.existsP (stripSlash p) then s.fs.unlink (stripSlash p)
          else s.fs, dbUpdate s.db id [(f, none)]⟩, .ok) ∧
      ∀ c' ∈ (deleteDocument s id f).1.db, c'.id = id → c'.slots f = none) := by
  constructor
  · intro h
    simp only [deleteDocument, hc, h]
  · intro p hp
    have hdel : deleteDocument s id f =
        (⟨if s.fs.existsP (stripSlash p) then s.fs.unlink (stripSlash p)
          else s.fs, dbUpdate s.db id [(f, none)]⟩, .ok) := by
      simp only [deleteDocument, hc, hp]
    refine ⟨hdel, ?_⟩
    intro c' hc' hcid
    rw [hdel] at hc'
    obtain ⟨r, _, rfl⟩ := List.mem_map.mp hc'
    by_cases hrid : r.id = id
    · rw [if_pos hrid]
      show (if f = f then none else r.slots f) = none
      simp
    · rw [if_neg hrid] at hcid ⊢
      exact absurd hcid hrid

def clientNoDocs : ClientRec := ⟨"C1".data, fun _ => none⟩

def sysDelNone : Sys := ⟨⟨[], []⟩, [clientNoDocs]⟩

theorem delete_document_empty_slot_witness :
    deleteDocument sysDelNone "C1".data DocField.nic_proof =
      (sysDelNone, .docNotFound) :=
  (delete_document_empty_slot sysDelNone "C1".data DocField.nic_proof
    clientNoDocs rfl).1 rfl

/-! ## Non-destructive temp repair (claim C5) -/

theorem read_some_existsP (fs : FS) (p γ : Path) (h : fs.read p = some γ) :
    fs.existsP p = true := by
  rw [FS.read] at h
  cases hf : fs.files.find? (fun q => q.1 = p) with
  | none => rw [hf] at h; cases h
  | some q =>
    have hm := List.mem_of_find?_eq_some hf
    have hq : q.1 = p := by
      have := List.find?_some hf
      simpa using this
    rw [← hq]
    exact existsP_of_file_mem fs q hm

theorem mkdir_read (fs : FS) (d p : Path) : (fs.mkdir d).read p = fs.read p :=
  rfl

theorem fixTempStep_paths_mono (o : Oracle) (tempDir clientDir : Path)
    (st : FS × Nat) (n q : Path) (h : q ∈ st.1.filePaths) :
    q ∈ (fixTempStep o tempDir clientDir st n).1.filePaths := by
  rw [fixTempStep]
  split
  · exact h
  · exact filePaths_copy_mem _ _ _ _ h

theorem fixTempFold_paths_mono (o : Oracle) (tempDir clientDir : Path)
    (names : List Path) (st : FS × Nat) (q : Path) (h : q ∈ st.1.filePaths) :
    q ∈ (names.foldl (fixTempStep o tempDir clientDir) st).1.filePaths := by
  induction names generalizing st with
  | nil => exact h
  | cons n rest ih =>
    exact ih _ (fixTempStep_paths_mono o tempDir clientDir st n q h)

theorem scanTempFix_read (o : Oracle) (cid : Path) (acc : ScanAcc)
    (f : DocField) (p fname γ : Path)
    (hread : acc.fs.read (stripSlash p) = some γ)
    (hcopy : o.copyFails (stripSlash p) (nsFile cid fname) = false) :
    (scanTempFix o cid acc f p fname).fs.read (stripSlash p) = some γ ∧
    (scanTempFix o cid acc f p fname).fs.read (nsFile cid fname) = some γ := by
  have hex : acc.fs.existsP (stripSlash p) = true :=
    read_some_existsP _ _ _ hread
  rw [scanTempFix, if_pos hex]
  have hread1 : (if acc.fs.existsP (nsDir cid) then acc
      else { acc with fs := acc.fs.mkdir (nsDir cid) }).fs.read (stripSlash p) =
      some γ := by
    split
    · exact hread
    · exact hread
  set acc1 := if acc.fs.existsP (nsDir cid) then acc
    else { acc with fs := acc.fs.mkdir (nsDir cid) } with h1
  rw [scanTempCopy, hcopy]
  rw [if_neg (by simp)]
  rw [scanTempUpdate]
  constructor
  · split
    · show (acc1.fs.copy (stripSlash p) (nsFile cid fname)).read (stripSlash p) =
        some γ
      rw [copy_read_src, hread1]
    · show (acc1.fs.copy (stripSlash p) (nsFile cid fname)).read (stripSlash p) =
        some γ
      rw [copy_read_src, hread1]
  · split
    · show (acc1.fs.copy (stripSlash p) (nsFile cid fname)).read
        (nsFile cid fname) = some γ
      exact copy_read_dst _ _ _ _ hread1
    · show (acc1.fs.copy (stripSlash p) (nsFile cid fname)).read
        (nsFile cid fname) = some γ
      exact copy_read_dst _ _ _ _ hread1

/-- Claim C5: repairing a `temp-path` drift whose staging file exists is
non-destructive. The scan's per-slot repair copies — never moves — the
staging file to the permanent location: afterwards the staging source still
holds its original content and the permanent location holds the same
content. Likewise the temp-fix endpoint only copies: every file path that
existed before it ran still exists afterwards. -/
theorem temp_repair_nondestructive (o : Oracle) (cid : Path) (acc : ScanAcc)
    (f : DocField) (v : Option Path) (p fname γ : Path)
    (hv : truthy v = some p)
    (hsub : containsSub tempLit p = true)
    (hmatch : scanTempMatch p = some fname)
    (hread : acc.fs.read (stripSlash p) = some γ)
    (hcopy : o.copyFails (stripSlash p) (nsFile cid fname) = false) :
    ((scanField o cid acc f v).fs.read (stripSlash p) = some γ ∧
     (scanField o cid acc f v).fs.read (nsFile cid fname) = some γ) ∧
    (∀ (s : Sys) (tid cid2 q : Path), q ∈ s.fs.filePaths →
      q ∈ (fixTempDocument o s tid cid2).1.fs.filePaths) := by
  constructor
  · have hfield : scanField o cid acc f v = scanTempFix o cid
        { acc with checkedDocuments := acc.checkedDocuments + 1,
                   tempFiles := acc.tempFiles + 1 } f p fname := by
      rw [scanField.eq_def, hv]
      simp only [hsub, hmatch, eq_self_iff_true, if_true]
    rw [hfield]
    exact scanTempFix_read o cid _ f p fname γ hread hcopy
  · intro s tid cid2 q hq
    rw [fixTempDocument]
    split
    · exact hq
    · generalize hfs : (if s.fs.existsP (nsDir cid2) then s.fs
        else s.fs.mkdir (nsDir cid2)) = fs1
      have hq1 : q ∈ fs1.filePaths := by
        rw [← hfs]
        split
        · exact hq
        · exact hq
      rw [fixTempGo]
      split
      · exact hq1
      · exact fixTempFold_paths_mono o _ _ _ _ q hq1

/-! ## Scan frame analysis (claim C2) -/

theorem foldl_inv {α β : Type} (P : β → Prop) (step : β → α → β)
    (l : List α) (b : β) (hb : P b)
    (hstep : ∀ a ∈ l, ∀ x, P x → P (step x a)) : P (l.foldl step b) := by
  induction l generalizing b with
  | nil => exact hb
  | cons a rest ih =>
    exact ih _ (hstep a (List.mem_cons_self _ _) b hb)
      (fun a' ha' x hx => hstep a' (List.mem_cons_of_mem _ ha') x hx)

theorem copy_dirs (fs : FS) (src dst : Path) :
    (fs.copy src dst).dirs = fs.dirs := by
  rw [FS.copy]
  cases fs.read src <;> rfl

/-- The per-slot correspondence the scan maintains between the snapshot and
the written-back record store: a slot differs from its snapshot value only
when the snapshot value was a regex-matching temp path, and then it holds
the canonical permanent path with the unchanged filename. -/
def ScanDbOk (db0 db : List ClientRec) : Prop :=
  ∀ c' ∈ db, ∃ c ∈ db0, c.id = c'.id ∧ ∀ f, ¬ c'.slots f = c.slots f →
    ∃ p fname, truthy (c.slots f) = some p ∧ containsSub tempLit p = true ∧
      scanTempMatch p = some fname ∧
      c'.slots f = some (rootLit ++ c.id ++ '/' :: fname)

theorem ScanDbOk_refl (db0 : List ClientRec) : ScanDbOk db0 db0 :=
  fun c' hc' => ⟨c', hc', rfl, fun _ hf => absurd rfl hf⟩

theorem ScanDbOk_update (db0 db : List ClientRec)
    (hnd : (db0.map (fun c => c.id)).Nodup) (c : ClientRec) (hc : c ∈ db0)
    (f : DocField) (p fname : Path)
    (hp : truthy (c.slots f) = some p) (hs : containsSub tempLit p = true)
    (hm : scanTempMatch p = some fname) (hok : ScanDbOk db0 db) :
    ScanDbOk db0
      (dbUpdate db c.id [(f, some (rootLit ++ c.id ++ '/' :: fname))]) := by
  intro c'' hc''
  obtain ⟨r, hr, rfl⟩ := List.mem_map.mp hc''
  by_cases hrid : r.id = c.id
  · rw [if_pos hrid]
    obtain ⟨cr, hcr, hcrid, hcrf⟩ := hok r hr
    have hceq : cr = c := List.inj_on_of_nodup_map hnd hcr hc (by
      rw [hcrid, hrid])
    refine ⟨c, hc, ?_, ?_⟩
    · rw [applyUpd_id, hrid]
    · intro g hg
      by_cases hgf : g = f
      · subst hgf
        have hval : (applyUpd r [(g, some (rootLit ++ c.id ++ '/' :: fname))]).slots
            g = some (rootLit ++ c.id ++ '/' :: fname) :=
          applyUpd_slots_mem _ _ _ _ (by simp) (by simp)
        exact ⟨p, fname, hp, hs, hm, hval⟩
      · have hval : (applyUpd r [(f, some (rootLit ++ c.id ++ '/' :: fname))]).slots
            g = r.slots g :=
          applyUpd_slots_not_mem _ _ _ (by simp [hgf])
        rw [hval] at hg ⊢
        have := hcrf g (by rw [hceq]; exact hg)
        rw [hceq] at this
        obtain ⟨p', fn', h1, h2, h3, h4⟩ := this
        exact ⟨p', fn', h1, h2, h3, by rw [h4]⟩
  · rw [if_neg hrid]
    exact hok r hr

theorem scanTempFix_db (o : Oracle) (cid : Path) (acc : ScanAcc)
    (f : DocField) (p fname : Path) :
    (scanTempFix o cid acc f p fname).db = acc.db ∨
    (scanTempFix o cid acc f p fname).db =
      dbUpdate acc.db cid [(f, some (rootLit ++ cid ++ '/' :: fname))] := by
  rw [scanTempFix]
  split
  · rw [scanTempCopy]
    split
    · left; split <;> rfl
    · rw [scanTempUpdate]
      split
      · left; split <;> rfl
      · right; split <;> rfl
  · left; rfl

theorem scanField_some (o : Oracle) (cid : Path) (acc : ScanAcc)
    (f : DocField) (v : Option Path) (p : Path) (hv : truthy v = some p) :
    scanField o cid acc f v =
      (if containsSub tempLit p then
        match scanTempMatch p with
        | none =>
          { acc with checkedDocuments := acc.checkedDocuments + 1,
                     tempFiles := acc.tempFiles + 1 }
        | some fname =>
          scanTempFix o cid
            { acc with checkedDocuments := acc.checkedDocuments + 1,
                       tempFiles := acc.tempFiles + 1 } f p fname
      else if acc.fs.existsP (stripSlash p) then
        { acc with checkedDocuments := acc.checkedDocuments + 1 }
      else
        { acc with checkedDocuments := acc.checkedDocuments + 1,
                   missingFiles := acc.missingFiles + 1 }) := by
  rw [scanField.eq_def, hv]

theorem scanField_db (o : Oracle) (cid : Path) (acc : ScanAcc) (f : DocField)
    (v : Option Path) :
    (scanField o cid acc f v).db = acc.db ∨
    ∃ p fname, truthy v = some p ∧ containsSub tempLit p = true ∧
      scanTempMatch p = some fname ∧
      (scanField o cid acc f v).db =
        dbUpdate acc.db cid [(f, some (rootLit ++ cid ++ '/' :: fname))] := by
  cases hv : truthy v with
  | none =>
    left
    rw [scanField.eq_def, hv]
  | some p =>
    rw [scanField_some o cid acc f v p hv]
    by_cases hsub : containsSub tempLit p = true
    · rw [if_pos hsub]
      cases hmatch : scanTempMatch p with
      | none => exact Or.inl rfl
      | some fname =>
        rcases scanTempFix_db o cid
          { acc with checkedDocuments := acc.checkedDocuments + 1,
                     tempFiles := acc.tempFiles + 1 } f p fname with h | h
        · exact Or.inl h
        · exact Or.inr ⟨p, fname, rfl, hsub, hmatch, h⟩
    · rw [if_neg hsub]
      by_cases hex : acc.fs.existsP (stripSlash p) = true
      · rw [if_pos hex]; exact Or.inl rfl
      · rw [if_neg hex]; exact Or.inl rfl

theorem scanTempFix_fs_mono (o : Oracle) (cid : Path) (acc : ScanAcc)
    (f : DocField) (p fname : Path) :
    (∀ q, q ∈ acc.fs.filePaths →
      q ∈ (scanTempFix o cid acc f p fname).fs.filePaths) ∧
    (∀ d, d ∈ acc.fs.dirs → d ∈ (scanTempFix o cid acc f p fname).fs.dirs) := by
  rw [scanTempFix]
  split
  · have hmk : ∀ q, q ∈ acc.fs.filePaths →
        q ∈ (if acc.fs.existsP (nsDir cid) then acc
          else { acc with fs := acc.fs.mkdir (nsDir cid) }).fs.filePaths := by
      intro q hq; split <;> exact hq
    have hmkd : ∀ d, d ∈ acc.fs.dirs →
        d ∈ (if acc.fs.existsP (nsDir cid) then acc
          else { acc with fs := acc.fs.mkdir (nsDir cid) }).fs.dirs := by
      intro d hd
      split
      · exact hd
      · exact List.mem_cons_of_mem _ hd
    set acc1 := if acc.fs.existsP (nsDir cid) then acc
      else { acc with fs := acc.fs.mkdir (nsDir cid) } with h1
    rw [scanTempCopy]
    split
    · exact ⟨hmk, hmkd⟩
    · rw [scanTempUpdate]
      constructor
      · intro q hq
        split
        · exact filePaths_copy_mem _ _ _ _ (hmk q hq)
        · exact filePaths_copy_mem _ _ _ _ (hmk q hq)
      · intro d hd
        split
        · show d ∈ (acc1.fs.copy (stripSlash p) (nsFile cid fname)).dirs
          rw [copy_dirs]; exact hmkd d hd
        · show d ∈ (acc1.fs.copy (stripSlash p) (nsFile cid fname)).dirs
          rw [copy_dirs]; exact hmkd d hd
  · exact ⟨fun q hq => hq, fun d hd => hd⟩

theorem scanField_fs_mono (o : Oracle) (cid : Path) (acc : ScanAcc)
    (f : DocField) (v : Option Path) :
    (∀ q, q ∈ acc.fs.filePaths →
      q ∈ (scanField o cid acc f v).fs.filePaths) ∧
    (∀ d, d ∈ acc.fs.dirs → d ∈ (scanField o cid acc f v).fs.dirs) := by
  cases hv : truthy v with
  | none =>
    rw [scanField.eq_def, hv]
    exact ⟨fun q hq => hq, fun d hd => hd⟩
  | some p =>
    rw [scanField_some o cid acc f v p hv]
    by_cases hsub : containsSub tempLit p = true
    · rw [if_pos hsub]
      cases hmatch : scanTempMatch p with
      | none => exact ⟨fun q hq => hq, fun d hd => hd⟩
      | some fname =>
        exact scanTempFix_fs_mono o cid
          { acc with checkedDocuments := acc.checkedDocuments + 1,
                     tempFiles := acc.tempFiles + 1 } f p fname
    · rw [if_neg hsub]
      by_cases hex : acc.fs.existsP (stripSlash p) = true
      · rw [if_pos hex]; exact ⟨fun q hq => hq, fun d hd => hd⟩
      · rw [if_neg hex]; exact ⟨fun q hq => hq, fun d hd => hd⟩

theorem scanClient_inv (o : Oracle) (db0 : List ClientRec) (fs0 : FS)
    (hnd : (db0.map (fun c => c.id)).Nodup) (acc : ScanAcc) (c : ClientRec)
    (hc : c ∈ db0)
    (hok : (∀ q, q ∈ fs0.filePaths → q ∈ acc.fs.filePaths) ∧
      (∀ d, d ∈ fs0.dirs → d ∈ acc.fs.dirs) ∧ ScanDbOk db0 acc.db) :
    (∀ q, q ∈ fs0.filePaths → q ∈ (scanClient o acc c).fs.filePaths) ∧
    (∀ d, d ∈ fs0.dirs → d ∈ (scanClient o acc c).fs.dirs) ∧
    ScanDbOk db0 (scanClient o acc c).db := by
  rw [scanClient]
  split
  · exact hok
  · have hok1 : (∀ q, q ∈ fs0.filePaths →
        q ∈ (if acc.fs.existsP (nsDir c.id) then acc
          else { acc with fs := acc.fs.mkdir (nsDir c.id) }).fs.filePaths) ∧
        (∀ d, d ∈ fs0.dirs →
          d ∈ (if acc.fs.existsP (nsDir c.id) then acc
            else { acc with fs := acc.fs.mkdir (nsDir c.id) }).fs.dirs) ∧
        ScanDbOk db0 (if acc.fs.existsP (nsDir c.id) then acc
          else { acc with fs := acc.fs.mkdir (nsDir c.id) }).db := by
      split
      · exact hok
      · exact ⟨hok.1, fun d hd => List.mem_cons_of_mem _ (hok.2.1 d hd),
          hok.2.2⟩
    refine foldl_inv (fun a : ScanAcc =>
        (∀ q, q ∈ fs0.filePaths → q ∈ a.fs.filePaths) ∧
        (∀ d, d ∈ fs0.dirs → d ∈ a.fs.dirs) ∧ ScanDbOk db0 a.db)
      _ documentFields _ hok1 ?_
    intro f _ x hx
    have hmono := scanField_fs_mono o c.id x f (c.slots f)
    refine ⟨fun q hq => hmono.1 q (hx.1 q hq),
      fun d hd => hmono.2 d (hx.2.1 d hd), ?_⟩
    rcases scanField_db o c.id x f (c.slots f) with h | h
    · rw [h]; exact hx.2.2
    · obtain ⟨p, fname, hp, hs, hm, heq⟩ := h
      rw [heq]
      exact ScanDbOk_update db0 x.db hnd c hc f p fname hp hs hm hx.2.2

/-- Claim C2 (amended): what the drift scan may and may not touch. It never
removes a file path or directory (it only adds copies and directories), and
a client record slot differs from its snapshot value only when that snapshot
value was a `temp-`-containing, regex-matching staging path — in which case
the slot now holds the canonical permanent path for the same filename. All
other classifications leave the state untouched. -/
theorem scan_frame_amended (o : Oracle) (s : Sys)
    (hnd : (s.db.map (fun c => c.id)).Nodup) :
    (∀ q, q ∈ s.fs.filePaths → q ∈ (checkDocuments o s).1.fs.filePaths) ∧
    (∀ d, d ∈ s.fs.dirs → d ∈ (checkDocuments o s).1.fs.dirs) ∧
    ScanDbOk s.db (checkDocuments o s).1.db := by
  have h := foldl_inv (fun a : ScanAcc =>
      (∀ q, q ∈ s.fs.filePaths → q ∈ a.fs.filePaths) ∧
      (∀ d, d ∈ s.fs.dirs → d ∈ a.fs.dirs) ∧ ScanDbOk s.db a.db)
    (scanClient o) s.db ⟨s.fs, s.db, 0, 0, 0, 0, []⟩
    ⟨fun q hq => hq, fun d hd => hd, ScanDbOk_refl s.db⟩
    (fun c hc x hx => scanClient_inv o s.db s.fs hnd x c hc hx)
  exact h

theorem scan_frame_amended_witness :
    nsFile "temp-ab".data "nic_proof-1.pdf".data ∈
      (checkDocuments noFailOracle sysScanFix).1.fs.filePaths :=
  (scan_frame_amended noFailOracle sysScanFix (by decide)).1
    (nsFile "temp-ab".data "nic_proof-1.pdf".data) (by decide)

/-! ## Placeholder semantics (claim C3) -/

theorem append_cons_ne (a : Path) (c : Char) (rest : Path) :
    ¬ a ++ c :: rest = a := by
  intro h
  have := congrArg List.length h
  simp [List.length_append] at this

theorem existsP_mkdir_ne (fs : FS) (d p : Path) (h : ¬ p = d) :
    (fs.mkdir d).existsP p = fs.existsP p := by
  have hd : (decide (d = p)) = false := by
    simp only [decide_eq_false_iff_not]
    exact fun hh => h hh.symm
  simp [FS.existsP, FS.mkdir, List.any_cons, hd]

theorem existsP_write_self (fs : FS) (p c : Path) :
    (fs.write p c).existsP p = true := by
  simp only [FS.existsP, FS.write, Bool.or_eq_true, List.any_eq_true]
  exact Or.inr ⟨(p, c), List.mem_cons_self _ _, by simp⟩

theorem repairField_some (o : Oracle) (f : DocField) (v : Option Path)
    (st : RepAcc × List (DocField × Option Path)) (p : Path)
    (hv : truthy v = some p) :
    repairField o f v st =
      (match repairTempMatch p with
       | some (tempId, fname) => (repairTemp o st.1 tempId fname, st.2)
       | none =>
         if isPre docsLit p && !isPre rootLit p then
           ({ st.1 with fixedPaths := st.1.fixedPaths + 1 },
            st.2 ++ [(f, some (uploadsLit ++ p))])
         else st) := by
  rw [repairField.eq_def, hv]

theorem repairTemp_missing (o : Oracle) (acc : RepAcc) (tid fname : Path)
    (hmiss : acc.fs.existsP (nsFile tid fname) = false)
    (hw : o.writeFails (nsFile tid fname) = false) :
    (repairTemp o acc tid fname).fixedPaths = acc.fixedPaths + 1 ∧
    (repairTemp o acc tid fname).fs.read (nsFile tid fname) =
      some placeholderLit := by
  rw [repairTemp]
  have hboth : ∀ (a : RepAcc), a.fs.existsP (nsFile tid fname) = false →
      (repairPlaceholder o a tid fname).fixedPaths = a.fixedPaths + 1 ∧
      (repairPlaceholder o a tid fname).fs.read (nsFile tid fname) =
        some placeholderLit := by
    intro a ha
    rw [repairPlaceholder, if_neg (by simp [ha]), if_neg (by simp [hw])]
    exact ⟨rfl, read_write_self _ _ _⟩
  by_cases hdir : acc.fs.existsP (nsDir tid) = true
  · rw [if_pos hdir]
    exact hboth acc hmiss
  · rw [if_neg hdir]
    refine hboth _ ?_
    show (acc.fs.mkdir (nsDir tid)).existsP (nsDir tid ++ '/' :: fname) = false
    rw [existsP_mkdir_ne _ _ _ (append_cons_ne (nsDir tid) '/' fname)]
    exact hmiss

/-- Claim C3 (amended): placeholder substitution semantics of the repair
endpoint. For a `missing-temp-file` record (temp-shaped path, staging file
absent), the repair writes the placeholder — whose content marks it
unambiguously as such — leaves the slot's stored path out of the update map
(so the stored path is unchanged), but it does increment `fixedPaths` for
the substitution. For a `missing-file` record (canonical path, no temp
match, prefix intact), the repair takes no action at all and `fixedPaths`
is not incremented. -/
theorem placeholder_semantics_amended (o : Oracle) (acc : RepAcc)
    (ups : List (DocField × Option Path)) (f : DocField) (v : Option Path)
    (p tid fname : Path)
    (hv : truthy v = some p)
    (hm : repairTempMatch p = some (tid, fname))
    (hmiss : acc.fs.existsP (nsFile tid fname) = false)
    (hw : o.writeFails (nsFile tid fname) = false) :
    ((repairField o f v (acc, ups)).2 = ups ∧
     (repairField o f v (acc, ups)).1.fixedPaths = acc.fixedPaths + 1 ∧
     (repairField o f v (acc, ups)).1.fs.read (nsFile tid fname) =
       some placeholderLit) ∧
    (∀ v2 p2, truthy v2 = some p2 → repairTempMatch p2 = none →
      (isPre docsLit p2 && !isPre rootLit p2) = false →
      repairField o f v2 (acc, ups) = (acc, ups)) := by
  constructor
  · have hred : repairField o f v (acc, ups) =
        (repairTemp o acc tid fname, ups) := by
      rw [repairField_some o f v (acc, ups) p hv, hm]
    rw [hred]
    exact ⟨rfl, (repairTemp_missing o acc tid fname hmiss hw).1,
      (repairTemp_missing o acc tid fname hmiss hw).2⟩
  · intro v2 p2 hv2 hm2 hbool
    rw [repairField_some o f v2 (acc, ups) p2 hv2, hm2]
    rw [if_neg (by simp [hbool])]

def accC3 : RepAcc := ⟨⟨[], []⟩, [], 0, 0, []⟩

theorem placeholder_semantics_amended_witness :
    ((repairField noFailOracle DocField.nic_proof
        (some "/uploads/documents/temp-ab/doc.pdf".data) (accC3, [])).2 = [] ∧
     (repairField noFailOracle DocField.nic_proof
        (some "/uploads/documents/temp-ab/doc.pdf".data)
        (accC3, [])).1.fixedPaths = accC3.fixedPaths + 1 ∧
     (repairField noFailOracle DocField.nic_proof
        (some "/uploads/documents/temp-ab/doc.pdf".data)
        (accC3, [])).1.fs.read (nsFile "temp-ab".data "doc.pdf".data) =
       some placeholderLit) ∧
    (∀ v2 p2, truthy v2 = some p2 → repairTempMatch p2 = none →
      (isPre docsLit p2 && !isPre rootLit p2) = false →
      repairField noFailOracle DocField.nic_proof v2 (accC3, []) =
        (accC3, [])) :=
  placeholder_semantics_amended noFailOracle accC3 [] DocField.nic_proof
    (some "/uploads/documents/temp-ab/doc.pdf".data)
    "/uploads/documents/temp-ab/doc.pdf".data "temp-ab".data "doc.pdf".data
    (by decide) (by decide) (by decide) (by decide)

/-! ## Continue-on-error analysis (claim C9) -/

theorem foldl_append_acc {α β : Type} (g : α → List β) (l : List α)
    (u0 : List β) :
    l.foldl (fun u a => u ++ g a) u0 =
      u0 ++ l.foldl (fun u a => u ++ g a) [] := by
  induction l generalizing u0 with
  | nil => simp
  | cons a rest ih =>
    simp only [List.foldl_cons]
    rw [ih (u0 ++ g a), ih (List.nil ++ g a)]
    simp

theorem upsOf1_none (f : DocField) (v : Option Path) (hv : truthy v = none) :
    upsOf1 f v = [] := by
  rw [upsOf1.eq_def, hv]

theorem upsOf1_some (f : DocField) (v : Option Path) (p : Path)
    (hv : truthy v = some p) :
    upsOf1 f v =
      (match repairTempMatch p with
       | some _ => []
       | none =>
         if isPre docsLit p && !isPre rootLit p then
           [(f, some (uploadsLit ++ p))]
         else []) := by
  rw [upsOf1.eq_def, hv]

theorem repairPlaceholder_frame (o : Oracle) (acc : RepAcc) (tid fname : Path) :
    (repairPlaceholder o acc tid fname).db = acc.db ∧
    (∃ es, (repairPlaceholder o acc tid fname).errors = acc.errors ++ es) ∧
    acc.fixedPaths ≤ (repairPlaceholder o acc tid fname).fixedPaths ∧
    acc.createdDirectories ≤
      (repairPlaceholder o acc tid fname).createdDirectories := by
  rw [repairPlaceholder]
  split
  · exact ⟨rfl, ⟨[], by simp⟩, le_refl _, le_refl _⟩
  · split
    · exact ⟨rfl, ⟨[.writeErr (nsFile tid fname)], rfl⟩, le_refl _, le_refl _⟩
    · exact ⟨rfl, ⟨[], by simp⟩, Nat.le_succ _, le_refl _⟩

theorem repairTemp_frame (o : Oracle) (acc : RepAcc) (tid fname : Path) :
    (repairTemp o acc tid fname).db = acc.db ∧
    (∃ es, (repairTemp o acc tid fname).errors = acc.errors ++ es) ∧
    acc.fixedPaths ≤ (repairTemp o acc tid fname).fixedPaths ∧
    acc.createdDirectories ≤ (repairTemp o acc tid fname).createdDirectories
    := by
  rw [repairTemp]
  split
  · exact repairPlaceholder_frame o acc tid fname
  · have h := repairPlaceholder_frame o
      { acc with fs := acc.fs.mkdir (nsDir tid),
                 createdDirectories := acc.createdDirectories + 1 } tid fname
    exact ⟨h.1, h.2.1, h.2.2.1, Nat.le_trans (Nat.le_succ _) h.2.2.2⟩

theorem repairField_frame (o : Oracle) (f : DocField) (v : Option Path)
    (st : RepAcc × List (DocField × Option Path)) :
    (repairField o f v st).1.db = st.1.db ∧
    (∃ es, (repairField o f v st).1.errors = st.1.errors ++ es) ∧
    st.1.fixedPaths ≤ (repairField o f v st).1.fixedPaths ∧
    st.1.createdDirectories ≤ (repairField o f v st).1.createdDirectories ∧
    (repairField o f v st).2 = st.2 ++ upsOf1 f v := by
  cases hv : truthy v with
  | none =>
    rw [repairField.eq_def, hv, upsOf1_none f v hv]
    exact ⟨rfl, ⟨[], by simp⟩, le_refl _, le_refl _, by simp⟩
  | some p =>
    rw [repairField_some o f v st p hv, upsOf1_some f v p hv]
    cases hm : repairTempMatch p with
    | some tf =>
      obtain ⟨tid, fname⟩ := tf
      have h := repairTemp_frame o st.1 tid fname
      exact ⟨h.1, h.2.1, h.2.2.1, h.2.2.2, by simp⟩
    | none =>
      by_cases hb : (isPre docsLit p && !isPre rootLit p) = true
      · rw [if_pos hb, if_pos hb]
        exact ⟨rfl, ⟨[], by simp⟩, Nat.le_succ _, le_refl _, rfl⟩
      · rw [if_neg hb, if_neg hb]
        exact ⟨rfl, ⟨[], by simp⟩, le_refl _, le_refl _, by simp⟩

theorem repairFields_fold (o : Oracle) (c : ClientRec) (l : List DocField)
    (acc : RepAcc) (ups : List (DocField × Option Path)) :
    ((l.foldl (fun st f => repairField o f (c.slots f) st) (acc, ups)).1.db =
      acc.db) ∧
    (∃ es, (l.foldl (fun st f => repairField o f (c.slots f) st)
      (acc, ups)).1.errors = acc.errors ++ es) ∧
    acc.fixedPaths ≤
      (l.foldl (fun st f => repairField o f (c.slots f) st)
        (acc, ups)).1.fixedPaths ∧
    acc.createdDirectories ≤
      (l.foldl (fun st f => repairField o f (c.slots f) st)
        (acc, ups)).1.createdDirectories ∧
    (l.foldl (fun st f => repairField o f (c.slots f) st) (acc, ups)).2 =
      ups ++ l.foldl (fun u f => u ++ upsOf1 f (c.slots f)) [] := by
  induction l generalizing acc ups with
  | nil => exact ⟨rfl, ⟨[], by simp⟩, le_refl _, le_refl _, by simp⟩
  | cons f rest ih =>
    simp only [List.foldl_cons]
    have hstep := repairField_frame o f (c.slots f) (acc, ups)
    have hrest := ih (repairField o f (c.slots f) (acc, ups)).1
      (repairField o f (c.slots f) (acc, ups)).2
    obtain ⟨hdb1, ⟨es1, he1⟩, hf1, hc1, hu1⟩ := hstep
    obtain ⟨hdb2, ⟨es2, he2⟩, hf2, hc2, hu2⟩ := hrest
    refine ⟨by rw [hdb2, hdb1], ⟨es1 ++ es2, by rw [he2, he1]; simp⟩,
      Nat.le_trans hf1 hf2, Nat.le_trans hc1 hc2, ?_⟩
    rw [hu2, hu1, foldl_append_acc (fun f => upsOf1 f (c.slots f)) rest
      (List.nil ++ upsOf1 f (c.slots f))]
    simp

theorem repairFinish_frame (o : Oracle) (cid : Path)
    (st : RepAcc × List (DocField × Option Path)) :
    (repairFinish o cid st).db = st.1.db ∨
      (repairFinish o cid st).db = dbUpdate st.1.db cid st.2 := by
  rw [repairFinish]
  split
  · exact Or.inl rfl
  · split
    · exact Or.inl rfl
    · exact Or.inr rfl

theorem repairFinish_errors (o : Oracle) (cid : Path)
    (st : RepAcc × List (DocField × Option Path)) :
    (∃ es, (repairFinish o cid st).errors = st.1.errors ++ es) ∧
    (repairFinish o cid st).fixedPaths = st.1.fixedPaths ∧
    (repairFinish o cid st).createdDirectories = st.1.createdDirectories := by
  rw [repairFinish]
  split
  · exact ⟨⟨[], by simp⟩, rfl, rfl⟩
  · split
    · exact ⟨⟨[.updateErr cid], rfl⟩, rfl, rfl⟩
    · exact ⟨⟨[], by simp⟩, rfl, rfl⟩

theorem repairClient_frame (o : Oracle) (acc : RepAcc) (c : ClientRec) :
    (∃ es, (repairClient o acc c).errors = acc.errors ++ es) ∧
    acc.fixedPaths ≤ (repairClient o acc c).fixedPaths ∧
    acc.createdDirectories ≤ (repairClient o acc c).createdDirectories := by
  rw [repairClient]
  split
  · exact ⟨⟨[], by simp⟩, le_refl _, le_refl _⟩
  · set acc1 := if acc.fs.existsP (nsDir c.id) then acc
      else { acc with fs := acc.fs.mkdir (nsDir c.id),
                      createdDirectories := acc.createdDirectories + 1 }
      with h1
    have hmk : acc1.errors = acc.errors ∧ acc1.fixedPaths = acc.fixedPaths ∧
        acc.createdDirectories ≤ acc1.createdDirectories := by
      rw [h1]; split
      · exact ⟨rfl, rfl, le_refl _⟩
      · exact ⟨rfl, rfl, Nat.le_succ _⟩
    have hfold := repairFields_fold o c documentFields acc1 []
    obtain ⟨hdb, ⟨es1, he1⟩, hf1, hc1, _⟩ := hfold
    have hfin := repairFinish_errors o c.id
      (documentFields.foldl (fun st f => repairField o f (c.slots f) st)
        (acc1, []))
    obtain ⟨⟨es2, he2⟩, hfin2, hfin3⟩ := hfin
    refine ⟨⟨es1 ++ es2, ?_⟩, ?_, ?_⟩
    · rw [he2, he1, hmk.1]; simp
    · rw [hfin2]
      exact Nat.le_trans (hmk.2.1 ▸ hf1) (le_refl _)
    · rw [hfin3]
      exact Nat.le_trans hmk.2.2 hc1

theorem runRepair_frame (o : Oracle) (l : List ClientRec) (acc : RepAcc) :
    (∃ es, (l.foldl (repairClient o) acc).errors = acc.errors ++ es) ∧
    acc.fixedPaths ≤ (l.foldl (repairClient o) acc).fixedPaths := by
  induction l generalizing acc with
  | nil => exact ⟨⟨[], by simp⟩, le_refl _⟩
  | cons c rest ih =>
    simp only [List.foldl_cons]
    obtain ⟨⟨es1, he1⟩, hf1, _⟩ := repairClient_frame o acc c
    obtain ⟨⟨es2, he2⟩, hf2⟩ := ih (repairClient o acc c)
    exact ⟨⟨es1 ++ es2, by rw [he2, he1]; simp⟩, Nat.le_trans hf1 hf2⟩

/-- Claim C9: continue-on-error with preserved partial results in the
repair loop. Processing a client list decomposes as a fold, so a batch is
never aborted: the items after any prefix are processed from the prefix's
accumulated state; the errors list only ever grows by appending and
`fixedPaths` never decreases, so per-item failures never discard the
results of items already processed; and a client whose record-store
write-back fails contributes exactly one appended error, leaves the record
store untouched, and the loop moves on to the next client. -/
theorem repair_continue_on_error (o : Oracle) (init acc : RepAcc)
    (l1 l2 : List ClientRec) (c : ClientRec)
    (hid : c.id.isEmpty = false)
    (hups : (repairUps c).isEmpty = false)
    (hfail : o.updateFails c.id (repairUps c) = true) :
    ((l1 ++ l2).foldl (repairClient o) init =
      l2.foldl (repairClient o) (l1.foldl (repairClient o) init)) ∧
    (∃ es, ((l1 ++ l2).foldl (repairClient o) init).errors =
      (l1.foldl (repairClient o) init).errors ++ es) ∧
    ((l1.foldl (repairClient o) init).fixedPaths ≤
      ((l1 ++ l2).foldl (repairClient o) init).fixedPaths) ∧
    ((repairClient o acc c).db = acc.db ∧
     ∃ es, (repairClient o acc c).errors =
       acc.errors ++ es ++ [.updateErr c.id]) := by
  have happ : (l1 ++ l2).foldl (repairClient o) init =
      l2.foldl (repairClient o) (l1.foldl (repairClient o) init) :=
    List.foldl_append _ _ _ _
  refine ⟨happ, ?_, ?_, ?_⟩
  · rw [happ]
    exact (runRepair_frame o l2 (l1.foldl (repairClient o) init)).1
  · rw [happ]
    exact (runRepair_frame o l2 (l1.foldl (repairClient o) init)).2
  · rw [repairClient, if_neg (by simp [hid])]
    set acc1 := if acc.fs.existsP (nsDir c.id) then acc
      else { acc with fs := acc.fs.mkdir (nsDir c.id),
                      createdDirectories := acc.createdDirectories + 1 }
      with h1
    have hmk : acc1.errors = acc.errors ∧ acc1.db = acc.db := by
      rw [h1]; split
      · exact ⟨rfl, rfl⟩
      · exact ⟨rfl, rfl⟩
    have hfold := repairFields_fold o c documentFields acc1 []
    obtain ⟨hdb, ⟨es1, he1⟩, _, _, hups'⟩ := hfold
    have hups2 : (documentFields.foldl
        (fun st f => repairField o f (c.slots f) st) (acc1, [])).2 =
        repairUps c := by
      simp [hups', repairUps]
    rw [repairFinish, hups2, if_neg (by simp [hups]), if_pos hfail]
    refine ⟨by rw [hdb, hmk.2], ⟨es1, ?_⟩⟩
    rw [he1, hmk.1]

def failOracle : Oracle :=
  ⟨fun _ _ => true, fun _ => false, fun _ _ => false⟩

theorem repair_continue_on_error_witness :
    (([oneSlotClient "C0".data .nic_proof "/documents/a.pdf".data] ++
        [oneSlotClient "C1".data .nic_proof "/documents/b.pdf".data]).foldl
        (repairClient failOracle) ⟨⟨[], []⟩, [], 0, 0, []⟩ =
      [oneSlotClient "C1".data .nic_proof "/documents/b.pdf".data].foldl
        (repairClient failOracle)
        ([oneSlotClient "C0".data .nic_proof "/documents/a.pdf".data].foldl
          (repairClient failOracle) ⟨⟨[], []⟩, [], 0, 0, []⟩)) ∧
    (∃ es, (([oneSlotClient "C0".data .nic_proof "/documents/a.pdf".data] ++
        [oneSlotClient "C1".data .nic_proof "/documents/b.pdf".data]).foldl
        (repairClient failOracle) ⟨⟨[], []⟩, [], 0, 0, []⟩).errors =
      ([oneSlotClient "C0".data .nic_proof "/documents/a.pdf".data].foldl
        (repairClient failOracle) ⟨⟨[], []⟩, [], 0, 0, []⟩).errors ++ es) ∧
    (([oneSlotClient "C0".data .nic_proof "/documents/a.pdf".data].foldl
        (repairClient failOracle) ⟨⟨[], []⟩, [], 0, 0, []⟩).fixedPaths ≤
      (([oneSlotClient "C0".data .nic_proof "/documents/a.pdf".data] ++
        [oneSlotClient "C1".data .nic_proof "/documents/b.pdf".data]).foldl
        (repairClient failOracle) ⟨⟨[], []⟩, [], 0, 0, []⟩).fixedPaths) ∧
    ((repairClient failOracle ⟨⟨[], []⟩, [], 0, 0, []⟩
        (oneSlotClient "C1".data .nic_proof "/documents/b.pdf".data)).db =
      (⟨⟨[], []⟩, [], 0, 0, []⟩ : RepAcc).db ∧
     ∃ es, (repairClient failOracle ⟨⟨[], []⟩, [], 0, 0, []⟩
        (oneSlotClient "C1".data .nic_proof "/documents/b.pdf".data)).errors =
       (⟨⟨[], []⟩, [], 0, 0, []⟩ : RepAcc).errors ++ es ++
         [.updateErr "C1".data]) :=
  repair_continue_on_error failOracle ⟨⟨[], []⟩, [], 0, 0, []⟩
    ⟨⟨[], []⟩, [], 0, 0, []⟩
    [oneSlotClient "C0".data .nic_proof "/documents/a.pdf".data]
    [oneSlotClient "C1".data .nic_proof "/documents/b.pdf".data]
    (oneSlotClient "C1".data .nic_proof "/documents/b.pdf".data)
    (by decide) (by decide) rfl

/-! ## Idempotence analysis (claim C4): the stable-state predicate -/

/-- A stored path the repair loop has nothing left to do for: if it is
temp-shaped, its staging directory and staging file exist; if not, it is
not missing the `/uploads` prefix. -/
def postFixedSlot (fs : FS) (p : Path) : Prop :=
  (∀ tid fn, repairTempMatch p = some (tid, fn) →
    fs.existsP (nsDir tid) = true ∧ fs.existsP (nsFile tid fn) = true) ∧
  (repairTempMatch p = none → (isPre docsLit p && !isPre rootLit p) = false)

/-- A state on which the repair loop performs no write at all. -/
def PostFixed (fs : FS) (db : List ClientRec) : Prop :=
  (∀ c ∈ db, c.id.isEmpty = false → fs.existsP (nsDir c.id) = true) ∧
  (∀ c ∈ db, c.id.isEmpty = false → ∀ f p, truthy (c.slots f) = some p →
    postFixedSlot fs p)

theorem repairField_id (o : Oracle) (f : DocField) (v : Option Path)
    (acc : RepAcc) (ups : List (DocField × Option Path))
    (hsafe : ∀ p, truthy v = some p → postFixedSlot acc.fs p) :
    repairField o f v (acc, ups) = (acc, ups) := by
  cases hv : truthy v with
  | none => rw [repairField.eq_def, hv]
  | some p =>
    rw [repairField_some o f v (acc, ups) p hv]
    have hs := hsafe p hv
    cases hm : repairTempMatch p with
    | some tf =>
      obtain ⟨tid, fn⟩ := tf
      obtain ⟨hdir, hfile⟩ := hs.1 tid fn hm
      show (repairTemp o acc tid fn, ups) = (acc, ups)
      rw [repairTemp, if_pos hdir, repairPlaceholder, if_pos hfile]
    | none =>
      rw [if_neg (by simp [hs.2 hm])]

theorem repairClient_id (o : Oracle) (acc : RepAcc) (c : ClientRec)
    (hPF : PostFixed acc.fs acc.db) (hc : c ∈ acc.db) :
    repairClient o acc c = acc := by
  rw [repairClient]
  by_cases hid : c.id.isEmpty = true
  · rw [if_pos hid]
  · rw [if_neg hid]
    have hid' : c.id.isEmpty = false := Bool.eq_false_iff.mpr hid
    have hdir := hPF.1 c hc hid'
    rw [if_pos hdir]
    have hfold : ∀ l : List DocField,
        l.foldl (fun st f => repairField o f (c.slots f) st) (acc, []) =
          (acc, []) := by
      intro l
      induction l with
      | nil => rfl
      | cons f rest ih =>
        rw [List.foldl_cons,
          repairField_id o f (c.slots f) acc []
            (fun p hp => hPF.2 c hc hid' f p hp), ih]
    rw [hfold documentFields, repairFinish]
    rfl

theorem runRepair_id (o : Oracle) (l : List ClientRec) (acc : RepAcc)
    (hl : ∀ c ∈ l, c ∈ acc.db) (hPF : PostFixed acc.fs acc.db) :
    l.foldl (repairClient o) acc = acc := by
  induction l with
  | nil => rfl
  | cons c rest ih =>
    rw [List.foldl_cons,
      repairClient_id o acc c hPF (hl c (List.mem_cons_self c rest))]
    exact ih (fun c' hc' => hl c' (List.mem_cons_of_mem c hc'))

/-! ## Idempotence analysis: what one repair run establishes -/

theorem existsP_mkdir_self (fs : FS) (d : Path) :
    (fs.mkdir d).existsP d = true := by
  simp [FS.existsP, FS.mkdir, List.any_cons]

theorem repairTemp_existsP_mono (o : Oracle) (acc : RepAcc)
    (tid fname q : Path) (h : acc.fs.existsP q = true) :
    (repairTemp o acc tid fname).fs.existsP q = true := by
  rw [repairTemp]
  have hgen : ∀ (a : RepAcc), a.fs.existsP q = true →
      (repairPlaceholder o a tid fname).fs.existsP q = true := by
    intro a ha
    rw [repairPlaceholder]
    split
    · exact ha
    · split
      · exact ha
      · exact existsP_write_of _ _ _ _ ha
  split
  · exact hgen acc h
  · exact hgen _ (existsP_mkdir_of _ _ _ h)

theorem repairField_existsP_mono (o : Oracle) (f : DocField) (v : Option Path)
    (st : RepAcc × List (DocField × Option Path)) (q : Path)
    (h : st.1.fs.existsP q = true) :
    (repairField o f v st).1.fs.existsP q = true := by
  cases hv : truthy v with
  | none =>
    rw [repairField.eq_def, hv]
    exact h
  | some p =>
    rw [repairField_some o f v st p hv]
    cases hm : repairTempMatch p with
    | some tf =>
      show (repairTemp o st.1 tf.1 tf.2, st.2).1.fs.existsP q = true
      exact repairTemp_existsP_mono o st.1 tf.1 tf.2 q h
    | none =>
      by_cases hb : (isPre docsLit p && !isPre rootLit p) = true
      · rw [if_pos hb]; exact h
      · rw [if_neg hb]; exact h

theorem repairFields_existsP_mono (o : Oracle) (c : ClientRec)
    (l : List DocField) (st : RepAcc × List (DocField × Option Path))
    (q : Path) (h : st.1.fs.existsP q = true) :
    ((l.foldl (fun st f => repairField o f (c.slots f) st) st)).1.fs.existsP q
      = true := by
  induction l generalizing st with
  | nil => exact h
  | cons f rest ih =>
    rw [List.foldl_cons]
    exact ih _ (repairField_existsP_mono o f (c.slots f) st q h)

theorem repairFinish_fs (o : Oracle) (cid : Path)
    (st : RepAcc × List (DocField × Option Path)) :
    (repairFinish o cid st).fs = st.1.fs := by
  rw [repairFinish]
  split
  · rfl
  · split <;> rfl

theorem repairClient_existsP_mono (o : Oracle) (acc : RepAcc) (c : ClientRec)
    (q : Path) (h : acc.fs.existsP q = true) :
    (repairClient o acc c).fs.existsP q = true := by
  rw [repairClient]
  split
  · exact h
  · rw [repairFinish_fs]
    refine repairFields_existsP_mono o c documentFields _ q ?_
    split
    · exact h
    · exact existsP_mkdir_of _ _ _ h

theorem repairPlaceholder_ensures (acc : RepAcc) (tid fn : Path)
    (hdir : acc.fs.existsP (nsDir tid) = true) :
    (repairPlaceholder noFailOracle acc tid fn).fs.existsP (nsDir tid) = true ∧
    (repairPlaceholder noFailOracle acc tid fn).fs.existsP (nsFile tid fn) =
      true := by
  rw [repairPlaceholder]
  by_cases hf : acc.fs.existsP (nsFile tid fn) = true
  · rw [if_pos hf]
    exact ⟨hdir, hf⟩
  · rw [if_neg hf, if_neg (by exact Bool.false_ne_true)]
    exact ⟨existsP_write_of _ _ _ _ hdir, existsP_write_self _ _ _⟩

theorem repairTemp_ensures (acc : RepAcc) (tid fn : Path) :
    (repairTemp noFailOracle acc tid fn).fs.existsP (nsDir tid) = true ∧
    (repairTemp noFailOracle acc tid fn).fs.existsP (nsFile tid fn) = true := by
  rw [repairTemp]
  by_cases hd : acc.fs.existsP (nsDir tid) = true
  · rw [if_pos hd]
    exact repairPlaceholder_ensures _ tid fn hd
  · rw [if_neg hd]
    exact repairPlaceholder_ensures _ tid fn (existsP_mkdir_self _ _)

theorem repairField_temp_ensures (f : DocField) (v : Option Path)
    (st : RepAcc × List (DocField × Option Path)) (p tid fn : Path)
    (hv : truthy v = some p) (hm : repairTempMatch p = some (tid, fn)) :
    (repairField noFailOracle f v st).1.fs.existsP (nsDir tid) = true ∧
    (repairField noFailOracle f v st).1.fs.existsP (nsFile tid fn) = true := by
  have hred : repairField noFailOracle f v st =
      (repairTemp noFailOracle st.1 tid fn, st.2) := by
    rw [repairField_some noFailOracle f v st p hv, hm]
  rw [hred]
  exact repairTemp_ensures st.1 tid fn

theorem repairFields_temp_ensures (c : ClientRec) (l : List DocField)
    (st : RepAcc × List (DocField × Option Path)) (f : DocField)
    (hf : f ∈ l) (p tid fn : Path)
    (hv : truthy (c.slots f) = some p)
    (hm : repairTempMatch p = some (tid, fn)) :
    ((l.foldl (fun st f => repairField noFailOracle f (c.slots f) st)
      st)).1.fs.existsP (nsDir tid) = true ∧
    ((l.foldl (fun st f => repairField noFailOracle f (c.slots f) st)
      st)).1.fs.existsP (nsFile tid fn) = true := by
  induction l generalizing st with
  | nil => cases hf
  | cons g rest ih =>
    rw [List.foldl_cons]
    rcases List.mem_cons.mp hf with rfl | hf'
    · have h0 := repairField_temp_ensures f (c.slots f) st p tid fn hv hm
      exact ⟨repairFields_existsP_mono _ c rest _ _ h0.1,
        repairFields_existsP_mono _ c rest _ _ h0.2⟩
    · exact ih _ hf'

theorem mem_documentFields (f : DocField) : f ∈ documentFields := by
  cases f <;> decide

theorem repairClient_establish (acc : RepAcc) (c : ClientRec)
    (hid : ¬ c.id.isEmpty = true) :
    (repairClient noFailOracle acc c).fs.existsP (nsDir c.id) = true ∧
    (∀ f p tid fn, truthy (c.slots f) = some p →
      repairTempMatch p = some (tid, fn) →
      (repairClient noFailOracle acc c).fs.existsP (nsDir tid) = true ∧
      (repairClient noFailOracle acc c).fs.existsP (nsFile tid fn) = true) := by
  rw [repairClient, if_neg hid]
  rw [repairFinish_fs]
  by_cases hd : acc.fs.existsP (nsDir c.id) = true
  · rw [if_pos hd]
    exact ⟨repairFields_existsP_mono _ c documentFields _ _ hd,
      fun f p tid fn hv hm => repairFields_temp_ensures c documentFields _ f
        (mem_documentFields f) p tid fn hv hm⟩
  · rw [if_neg hd]
    exact ⟨repairFields_existsP_mono _ c documentFields _ _
        (existsP_mkdir_self _ _),
      fun f p tid fn hv hm => repairFields_temp_ensures c documentFields _ f
        (mem_documentFields f) p tid fn hv hm⟩

/-! ## Idempotence analysis: the queued update map -/

theorem upsOf1_fst (f : DocField) (v : Option Path) :
    (upsOf1 f v).map Prod.fst = [] ∨ (upsOf1 f v).map Prod.fst = [f] := by
  cases hv : truthy v with
  | none => rw [upsOf1_none f v hv]; exact Or.inl rfl
  | some p =>
    rw [upsOf1_some f v p hv]
    cases repairTempMatch p with
    | some tf => exact Or.inl rfl
    | none =>
      by_cases hb : (isPre docsLit p && !isPre rootLit p) = true
      · rw [if_pos hb]; exact Or.inr rfl
      · rw [if_neg hb]; exact Or.inl rfl

theorem upsOf1_val (f : DocField) (v : Option Path)
    (x : DocField × Option Path) (hx : x ∈ upsOf1 f v) :
    ∃ p0, x = (f, some (uploadsLit ++ p0)) ∧ truthy v = some p0 ∧
      repairTempMatch p0 = none ∧
      (isPre docsLit p0 && !isPre rootLit p0) = true := by
  cases hv : truthy v with
  | none => rw [upsOf1_none f v hv] at hx; cases hx
  | some p =>
    rw [upsOf1_some f v p hv] at hx
    cases hm : repairTempMatch p with
    | some tf => rw [hm] at hx; cases hx
    | none =>
      rw [hm] at hx
      by_cases hb : (isPre docsLit p && !isPre rootLit p) = true
      · rw [if_pos hb] at hx
        rcases List.mem_singleton.mp hx with rfl
        exact ⟨p, rfl, rfl, hm, hb⟩
      · rw [if_neg hb] at hx; cases hx

theorem mem_upsFold_base (c : ClientRec) (l : List DocField)
    (u0 : List (DocField × Option Path)) (x : DocField × Option Path)
    (hx : x ∈ u0) :
    x ∈ l.foldl (fun u g => u ++ upsOf1 g (c.slots g)) u0 := by
  induction l generalizing u0 with
  | nil => exact hx
  | cons g rest ih =>
    exact ih _ (List.mem_append_left _ hx)

theorem repairUps_mem_of (c : ClientRec) (f : DocField) (p : Path)
    (hv : truthy (c.slots f) = some p)
    (hm : repairTempMatch p = none)
    (hb : (isPre docsLit p && !isPre rootLit p) = true) :
    (f, some (uploadsLit ++ p)) ∈ repairUps c := by
  have hone : (f, some (uploadsLit ++ p)) ∈ upsOf1 f (c.slots f) := by
    rw [upsOf1_some f _ p hv, hm, if_pos hb]
    exact List.mem_singleton.mpr rfl
  have hgen : ∀ (l : List DocField) (u0 : List (DocField × Option Path)),
      f ∈ l → (f, some (uploadsLit ++ p)) ∈
        l.foldl (fun u g => u ++ upsOf1 g (c.slots g)) u0 := by
    intro l
    induction l with
    | nil => intro u0 h; cases h
    | cons g rest ih =>
      intro u0 h
      rcases List.mem_cons.mp h with rfl | h'
      · exact mem_upsFold_base c rest _ _ (List.mem_append_right _ hone)
      · exact ih _ h'
  exact hgen documentFields [] (mem_documentFields f)

theorem repairUps_val (c : ClientRec) (x : DocField × Option Path)
    (hx : x ∈ repairUps c) :
    ∃ g p0, x = (g, some (uploadsLit ++ p0)) ∧
      truthy (c.slots g) = some p0 ∧ repairTempMatch p0 = none ∧
      (isPre docsLit p0 && !isPre rootLit p0) = true := by
  have hgen : ∀ (l : List DocField) (u0 : List (DocField × Option Path)),
      (∀ y ∈ u0, ∃ g p0, y = (g, some (uploadsLit ++ p0)) ∧
        truthy (c.slots g) = some p0 ∧ repairTempMatch p0 = none ∧
        (isPre docsLit p0 && !isPre rootLit p0) = true) →
      ∀ y ∈ l.foldl (fun u g => u ++ upsOf1 g (c.slots g)) u0,
        ∃ g p0, y = (g, some (uploadsLit ++ p0)) ∧
          truthy (c.slots g) = some p0 ∧ repairTempMatch p0 = none ∧
          (isPre docsLit p0 && !isPre rootLit p0) = true := by
    intro l
    induction l with
    | nil => intro u0 hu y hy; exact hu y hy
    | cons g rest ih =>
      intro u0 hu y hy
      refine ih _ ?_ y hy
      intro z hz
      rcases List.mem_append.mp hz with h | h
      · exact hu z h
      · obtain ⟨p0, rfl, h1, h2, h3⟩ := upsOf1_val g (c.slots g) z h
        exact ⟨g, p0, rfl, h1, h2, h3⟩
  exact hgen documentFields [] (fun y hy => absurd hy (List.not_mem_nil y)) x hx

theorem documentFields_nodup : documentFields.Nodup := by decide

theorem repairUps_fst_nodup (c : ClientRec) :
    ((repairUps c).map Prod.fst).Nodup := by
  have hgen : ∀ (l : List DocField) (u0 : List (DocField × Option Path)),
      l.Nodup → (u0.map Prod.fst).Nodup → (∀ g ∈ l, g ∉ u0.map Prod.fst) →
      (((l.foldl (fun u g => u ++ upsOf1 g (c.slots g)) u0).map Prod.fst).Nodup
       ∧ ∀ g, g ∈ (l.foldl (fun u g => u ++ upsOf1 g (c.slots g)) u0).map
          Prod.fst → g ∈ u0.map Prod.fst ∨ g ∈ l) := by
    intro l
    induction l with
    | nil => intro u0 _ hu _; exact ⟨hu, fun g hg => Or.inl hg⟩
    | cons g rest ih =>
      intro u0 hl hu hnot
      rw [List.nodup_cons] at hl
      have hfst : ((u0 ++ upsOf1 g (c.slots g)).map Prod.fst) =
          u0.map Prod.fst ++ (upsOf1 g (c.slots g)).map Prod.fst := by
        rw [List.map_append]
      have hnd' : ((u0 ++ upsOf1 g (c.slots g)).map Prod.fst).Nodup := by
        rw [hfst]
        rcases upsOf1_fst g (c.slots g) with h | h
        · rw [h]; simpa using hu
        · rw [h, List.nodup_append]
          refine ⟨hu, by simp, ?_⟩
          intro a ha hb
          rcases List.mem_singleton.mp hb with rfl
          exact hnot a (List.mem_cons_self _ _) ha
      have hnot' : ∀ g' ∈ rest, g' ∉ (u0 ++ upsOf1 g (c.slots g)).map Prod.fst
          := by
        intro g' hg' hmem
        rw [hfst] at hmem
        rcases List.mem_append.mp hmem with h | h
        · exact hnot g' (List.mem_cons_of_mem _ hg') h
        · rcases upsOf1_fst g (c.slots g) with he | he
          · rw [he] at h; cases h
          · rw [he] at h
            rcases List.mem_singleton.mp h with rfl
            exact hl.1 hg'
      have := ih (u0 ++ upsOf1 g (c.slots g)) hl.2 hnd' hnot'
      refine ⟨this.1, ?_⟩
      intro g'' hg''
      rcases this.2 g'' hg'' with h | h
      · rw [hfst] at h
        rcases List.mem_append.mp h with h' | h'
        · exact Or.inl h'
        · rcases upsOf1_fst g (c.slots g) with he | he
          · rw [he] at h'; cases h'
          · rw [he] at h'
            rcases List.mem_singleton.mp h' with rfl
            exact Or.inr (List.mem_cons_self _ _)
      · exact Or.inr (List.mem_cons_of_mem _ h)
  exact (hgen documentFields [] documentFields_nodup (by simp)
    (fun g _ => by simp)).1

theorem truthy_some (q : Path) (h : ¬ q = []) : truthy (some q) = some q := by
  cases q with
  | nil => exact absurd rfl h
  | cons a as => rfl

/-- The record the repair loop's write-back leaves for one client. -/
def fixRec (r : ClientRec) : ClientRec :=
  if r.id.isEmpty then r
  else if (repairUps r).isEmpty then r
  else applyUpd r (repairUps r)

/-- The record store after the repair loop has processed the clients whose
ids are in `prIds`. -/
def dbShape (db0 : List ClientRec) (prIds : List Path) : List ClientRec :=
  db0.map (fun r => if r.id ∈ prIds then fixRec r else r)

theorem fixRec_id (r : ClientRec) : (fixRec r).id = r.id := by
  rw [fixRec]
  split
  · rfl
  · split
    · rfl
    · exact applyUpd_id r _

theorem dbShape_nil (db0 : List ClientRec) : dbShape db0 [] = db0 := by
  simp [dbShape]

theorem repairClient_db_noFail (acc : RepAcc) (c : ClientRec) :
    (repairClient noFailOracle acc c).db =
      if c.id.isEmpty then acc.db
      else if (repairUps c).isEmpty then acc.db
      else dbUpdate acc.db c.id (repairUps c) := by
  by_cases hid : c.id.isEmpty = true
  · rw [repairClient, if_pos hid, if_pos hid]
  · rw [repairClient, if_neg hid, if_neg hid]
    have hru : documentFields.foldl
        (fun u f => u ++ upsOf1 f (c.slots f))
        ([] : List (DocField × Option Path)) = repairUps c := rfl
    by_cases hd : acc.fs.existsP (nsDir c.id) = true
    · rw [if_pos hd]
      obtain ⟨hdb, -, -, -, hups'⟩ :=
        repairFields_fold noFailOracle c documentFields acc []
      rw [repairFinish, hups', List.nil_append, hru]
      by_cases hup : (repairUps c).isEmpty = true
      · rw [if_pos hup, if_pos hup]; exact hdb
      · rw [if_neg hup, if_neg hup]
        have hnf : ¬(noFailOracle.updateFails c.id (repairUps c) = true) := by
          simp [noFailOracle]
        rw [if_neg hnf]
        exact congrArg (fun d => dbUpdate d c.id (repairUps c)) hdb
    · rw [if_neg hd]
      obtain ⟨hdb, -, -, -, hups'⟩ :=
        repairFields_fold noFailOracle c documentFields
          { acc with fs := acc.fs.mkdir (nsDir c.id),
                     createdDirectories := acc.createdDirectories + 1 } []
      rw [repairFinish, hups', List.nil_append, hru]
      by_cases hup : (repairUps c).isEmpty = true
      · rw [if_pos hup, if_pos hup]; exact hdb
      · rw [if_neg hup, if_neg hup]
        have hnf : ¬(noFailOracle.updateFails c.id (repairUps c) = true) := by
          simp [noFailOracle]
        rw [if_neg hnf]
        exact congrArg (fun d => dbUpdate d c.id (repairUps c)) hdb

theorem dbShape_snoc_id (db0 : List ClientRec) (prIds : List Path)
    (c : ClientRec) (hinj : ∀ r ∈ db0, r.id = c.id → r = c)
    (hfix : fixRec c = c) :
    dbShape db0 prIds = dbShape db0 (prIds ++ [c.id]) := by
  rw [dbShape, dbShape]
  refine List.map_congr_left ?_
  intro r hr
  by_cases hrp : r.id ∈ prIds
  · rw [if_pos hrp, if_pos (List.mem_append_left _ hrp)]
  · by_cases hrc : r.id = c.id
    · have hreq : r = c := hinj r hr hrc
      subst hreq
      rw [if_neg hrp,
        if_pos (List.mem_append_right _ (List.mem_singleton.mpr rfl)), hfix]
    · rw [if_neg hrp, if_neg (by
        intro hmem
        rcases List.mem_append.mp hmem with h | h
        · exact hrp h
        · exact hrc (List.mem_singleton.mp h))]

theorem dbShape_snoc_upd (db0 : List ClientRec) (prIds : List Path)
    (c : ClientRec) (hinj : ∀ r ∈ db0, r.id = c.id → r = c)
    (hnotpr : c.id ∉ prIds)
    (h1 : ¬ c.id.isEmpty = true) (h2 : ¬ (repairUps c).isEmpty = true) :
    dbUpdate (dbShape db0 prIds) c.id (repairUps c) =
      dbShape db0 (prIds ++ [c.id]) := by
  rw [dbUpdate, dbShape, dbShape, List.map_map]
  refine List.map_congr_left ?_
  intro r hr
  simp only [Function.comp_apply]
  have hgid : (if r.id ∈ prIds then fixRec r else r).id = r.id := by
    split
    · exact fixRec_id r
    · rfl
  by_cases hrc : r.id = c.id
  · have hreq : r = c := hinj r hr hrc
    subst hreq
    rw [if_neg hnotpr, if_pos rfl,
      if_pos (List.mem_append_right _ (List.mem_singleton.mpr rfl)),
      fixRec, if_neg h1, if_neg h2]
  · rw [if_neg (by
      intro hh
      rw [hgid] at hh
      exact hrc hh)]
    by_cases hrp : r.id ∈ prIds
    · rw [if_pos hrp, if_pos (List.mem_append_left _ hrp)]
    · rw [if_neg hrp, if_neg (by
        intro hmem
        rcases List.mem_append.mp hmem with h | h
        · exact hrp h
        · exact hrc (List.mem_singleton.mp h))]

theorem dbShape_step (db0 : List ClientRec)
    (hnd : (db0.map (fun c => c.id)).Nodup)
    (pr rest : List ClientRec) (c : ClientRec)
    (hsplit : db0 = pr ++ c :: rest) :
    (if c.id.isEmpty then dbShape db0 (pr.map (fun x => x.id))
     else if (repairUps c).isEmpty then dbShape db0 (pr.map (fun x => x.id))
     else dbUpdate (dbShape db0 (pr.map (fun x => x.id))) c.id (repairUps c))
      = dbShape db0 ((pr ++ [c]).map (fun x => x.id)) := by
  have hc0 : c ∈ db0 := by
    rw [hsplit]; exact List.mem_append_right _ (List.mem_cons_self _ _)
  have hnotpr : c.id ∉ pr.map (fun x => x.id) := by
    intro hmem
    rw [hsplit, List.map_append, List.nodup_append] at hnd
    exact hnd.2.2 hmem (List.mem_map_of_mem _ (List.mem_cons_self _ _))
  have hinj : ∀ r ∈ db0, r.id = c.id → r = c := by
    intro r hr h
    exact List.inj_on_of_nodup_map hnd hr hc0 h
  have hprIds : (pr ++ [c]).map (fun x => x.id) =
      pr.map (fun x => x.id) ++ [c.id] := by
    rw [List.map_append]; rfl
  rw [hprIds]
  by_cases h1 : c.id.isEmpty = true
  · rw [if_pos h1]
    exact dbShape_snoc_id db0 _ c hinj (by rw [fixRec, if_pos h1])
  · rw [if_neg h1]
    by_cases h2 : (repairUps c).isEmpty = true
    · rw [if_pos h2]
      exact dbShape_snoc_id db0 _ c hinj (by
        rw [fixRec, if_neg h1, if_pos h2])
    · rw [if_neg h2]
      exact dbShape_snoc_upd db0 _ c hinj hnotpr h1 h2

/-- Invariant carried along the first repair run: the record store is the
shaped image of the processed prefix, and the filesystem facts established
for each processed client persist. -/
def Run1Inv (db0 pr : List ClientRec) (acc : RepAcc) : Prop :=
  acc.db = dbShape db0 (pr.map (fun x => x.id)) ∧
  (∀ c ∈ pr, c.id.isEmpty = false → acc.fs.existsP (nsDir c.id) = true) ∧
  (∀ c ∈ pr, c.id.isEmpty = false → ∀ f p tid fn,
    truthy (c.slots f) = some p → repairTempMatch p = some (tid, fn) →
    acc.fs.existsP (nsDir tid) = true ∧
    acc.fs.existsP (nsFile tid fn) = true)

theorem run1_step (db0 : List ClientRec)
    (hnd : (db0.map (fun c => c.id)).Nodup)
    (pr rest : List ClientRec) (c : ClientRec)
    (hsplit : db0 = pr ++ c :: rest) (acc : RepAcc)
    (hinv : Run1Inv db0 pr acc) :
    Run1Inv db0 (pr ++ [c]) (repairClient noFailOracle acc c) := by
  refine ⟨?_, ?_, ?_⟩
  · rw [repairClient_db_noFail acc c, hinv.1]
    exact dbShape_step db0 hnd pr rest c hsplit
  · intro c' hc' hid'
    rcases List.mem_append.mp hc' with h | h
    · exact repairClient_existsP_mono _ acc c _ (hinv.2.1 c' h hid')
    · have hcc : c' = c := List.mem_singleton.mp h
      subst hcc
      exact (repairClient_establish acc c'
        (by rw [hid']; exact Bool.false_ne_true)).1
  · intro c' hc' hid' f p tid fn hv hm
    rcases List.mem_append.mp hc' with h | h
    · obtain ⟨hdir, hfile⟩ := hinv.2.2 c' h hid' f p tid fn hv hm
      exact ⟨repairClient_existsP_mono _ acc c _ hdir,
        repairClient_existsP_mono _ acc c _ hfile⟩
    · have hcc : c' = c := List.mem_singleton.mp h
      subst hcc
      exact (repairClient_establish acc c'
        (by rw [hid']; exact Bool.false_ne_true)).2 f p tid fn hv hm

theorem run1_go (db0 : List ClientRec)
    (hnd : (db0.map (fun c => c.id)).Nodup) :
    ∀ (todo pr : List ClientRec) (acc : RepAcc), db0 = pr ++ todo →
      Run1Inv db0 pr acc →
      Run1Inv db0 db0 (todo.foldl (repairClient noFailOracle) acc) := by
  intro todo
  induction todo with
  | nil =>
    intro pr acc hsplit hinv
    rw [List.append_nil] at hsplit
    subst hsplit
    exact hinv
  | cons c rest ih =>
    intro pr acc hsplit hinv
    rw [List.foldl_cons]
    exact ih (pr ++ [c]) _ (by rw [hsplit]; simp)
      (run1_step db0 hnd pr rest c hsplit acc hinv)

theorem fixRec_slots_not_mem (r : ClientRec) (f : DocField)
    (h : f ∉ (repairUps r).map Prod.fst) :
    (fixRec r).slots f = r.slots f := by
  rw [fixRec]
  split
  · rfl
  · split
    · rfl
    · exact applyUpd_slots_not_mem r _ f h

theorem fixRec_slots_mem (r : ClientRec) (f : DocField)
    (h : f ∈ (repairUps r).map Prod.fst) (h1 : ¬ r.id.isEmpty = true) :
    ∃ p0, (fixRec r).slots f = some (uploadsLit ++ p0) ∧
      truthy (r.slots f) = some p0 ∧ repairTempMatch p0 = none ∧
      (isPre docsLit p0 && !isPre rootLit p0) = true := by
  obtain ⟨x, hx, hxf⟩ := List.mem_map.mp h
  obtain ⟨g, p0, hxe, hv0, hm0, hb0⟩ := repairUps_val r x hx
  subst hxe
  have hgf : g = f := hxf
  subst hgf
  have hne : ¬ (repairUps r).isEmpty = true := by
    intro he
    cases hru : repairUps r with
    | nil => rw [hru] at hx; cases hx
    | cons a as => rw [hru] at he; simp at he
  rw [fixRec, if_neg h1, if_neg hne]
  exact ⟨p0, applyUpd_slots_mem r (repairUps r) g (some (uploadsLit ++ p0))
    (repairUps_fst_nodup r) hx, hv0, hm0, hb0⟩

/-- Decidable per-slot side condition for idempotence: a stored path that
gets the `/uploads` prefix added must not match the staging-path pattern
afterwards. -/
def slotSafeP (p : Path) : Bool :=
  match repairTempMatch p with
  | some _ => true
  | none =>
    if isPre docsLit p && !isPre rootLit p then
      decide (repairTempMatch (uploadsLit ++ p) = none)
    else true

def slotSafe (v : Option Path) : Bool :=
  match truthy v with
  | none => true
  | some p => slotSafeP p

theorem slotSafe_some (v : Option Path) (p : Path) (hv : truthy v = some p) :
    slotSafe v = slotSafeP p := by
  rw [slotSafe.eq_def, hv]

theorem slotSafeP_none (p : Path) (hm : repairTempMatch p = none) :
    slotSafeP p =
      if isPre docsLit p && !isPre rootLit p then
        decide (repairTempMatch (uploadsLit ++ p) = none)
      else true := by
  rw [slotSafeP.eq_def, hm]

theorem postFixed_of_run1 (db0 : List ClientRec) (acc : RepAcc)
    (hinv : Run1Inv db0 db0 acc)
    (hsafe : ∀ c ∈ db0, ∀ f p, truthy (c.slots f) = some p →
      repairTempMatch p = none →
      (isPre docsLit p && !isPre rootLit p) = true →
      repairTempMatch (uploadsLit ++ p) = none) :
    PostFixed acc.fs acc.db := by
  have hdb := hinv.1
  refine ⟨?_, ?_⟩
  · intro c' hc' hid'
    rw [hdb, dbShape] at hc'
    obtain ⟨r, hr, hre⟩ := List.mem_map.mp hc'
    rw [if_pos (List.mem_map_of_mem _ hr)] at hre
    have hrid : c'.id = r.id := by rw [← hre]; exact fixRec_id r
    have hid'' : r.id.isEmpty = false := by rw [← hrid]; exact hid'
    rw [hrid]
    exact hinv.2.1 r hr hid''
  · intro c' hc' hid' f p hv
    rw [hdb, dbShape] at hc'
    obtain ⟨r, hr, hre⟩ := List.mem_map.mp hc'
    rw [if_pos (List.mem_map_of_mem _ hr)] at hre
    have hrid : c'.id = r.id := by rw [← hre]; exact fixRec_id r
    have hid'' : r.id.isEmpty = false := by rw [← hrid]; exact hid'
    have h1 : ¬ r.id.isEmpty = true := by
      rw [hid'']; exact Bool.false_ne_true
    by_cases hf : f ∈ (repairUps r).map Prod.fst
    · obtain ⟨p0, hslot, hv0, hm0, hb0⟩ := fixRec_slots_mem r f hf h1
      have hcs : c'.slots f = some (uploadsLit ++ p0) := by
        rw [← hre]; exact hslot
      rw [hcs] at hv
      have hq : (uploadsLit ++ p0) ≠ ([] : Path) := by
        intro he
        exact absurd (List.append_eq_nil.mp he).1 (by decide)
      rw [truthy_some _ hq] at hv
      have hpe : uploadsLit ++ p0 = p := Option.some_inj.mp hv
      subst hpe
      refine ⟨?_, ?_⟩
      · intro tid fn hm
        rw [hsafe r hr f p0 hv0 hm0 hb0] at hm
        cases hm
      · intro _
        have hroot : isPre rootLit (uploadsLit ++ p0) = true := by
          have he : rootLit = uploadsLit ++ docsLit := by decide
          rw [he, isPre_cancel]
          have hb1 := hb0
          simp only [Bool.and_eq_true] at hb1
          exact hb1.1
        rw [hroot]
        simp
    · have hcs : c'.slots f = r.slots f := by
        rw [← hre]; exact fixRec_slots_not_mem r f hf
      rw [hcs] at hv
      refine ⟨?_, ?_⟩
      · intro tid fn hm
        exact hinv.2.2 r hr hid'' f p tid fn hv hm
      · intro hm
        cases hB : (isPre docsLit p && !isPre rootLit p) with
        | false => rfl
        | true =>
          exfalso
          exact hf (List.mem_map_of_mem _ (repairUps_mem_of r f p hv hm hB))

/-- C4 (amended): the repair endpoint is idempotent once the counterexample
pattern is excluded: if client ids are distinct and no stored path both
misses the `/uploads` prefix and matches the staging-path pattern after the
prefix is added, then a second run of `GET /api/repair-all-documents`
changes neither the filesystem nor the record store and reports
`fixedPaths = 0`, `createdDirectories = 0` and no errors. -/
theorem repair_idempotent_amended (s : Sys)
    (hnd : (s.db.map (fun c => c.id)).Nodup)
    (hsafe : ∀ c ∈ s.db, ∀ f ∈ documentFields, slotSafe (c.slots f) = true) :
    repairAllDocuments noFailOracle (repairAllDocuments noFailOracle s).1 =
      ((repairAllDocuments noFailOracle s).1,
       (⟨0, 0, []⟩ : RepResult)) := by
  have hsafe' : ∀ c ∈ s.db, ∀ f p, truthy (c.slots f) = some p →
      repairTempMatch p = none →
      (isPre docsLit p && !isPre rootLit p) = true →
      repairTempMatch (uploadsLit ++ p) = none := by
    intro c hc f p hv hm hb
    have hs := hsafe c hc f (mem_documentFields f)
    rw [slotSafe_some _ p hv, slotSafeP_none p hm, if_pos hb] at hs
    exact of_decide_eq_true hs
  have hinv0 : Run1Inv s.db [] ⟨s.fs, s.db, 0, 0, []⟩ := by
    refine ⟨?_, ?_, ?_⟩
    · show s.db = dbShape s.db []
      rw [dbShape_nil]
    · intro c hc _
      cases hc
    · intro c hc
      cases hc
  have hrun : Run1Inv s.db s.db (repairRun noFailOracle s) := by
    rw [repairRun]
    exact run1_go s.db hnd s.db [] _ rfl hinv0
  have hPF : PostFixed (repairRun noFailOracle s).fs
      (repairRun noFailOracle s).db :=
    postFixed_of_run1 s.db _ hrun hsafe'
  have hid2 : repairRun noFailOracle (repairAllDocuments noFailOracle s).1 =
      ⟨(repairRun noFailOracle s).fs, (repairRun noFailOracle s).db,
        0, 0, []⟩ := by
    rw [repairRun]
    exact runRepair_id noFailOracle _ _ (fun c hc => hc) hPF
  rw [repairAllDocuments, hid2]
  rfl

/-- A benign state: one client with a single canonical stored path. -/
def sysIdem : Sys :=
  ⟨⟨[nsDir "C1".data], []⟩,
   [oneSlotClient "C1".data .nic_proof
      "/uploads/documents/C1/nic_proof-1.pdf".data]⟩

theorem repair_idempotent_amended_witness :
    (sysIdem.db.map (fun c => c.id)).Nodup ∧
    (∀ c ∈ sysIdem.db, ∀ f ∈ documentFields, slotSafe (c.slots f) = true) ∧
    repairAllDocuments noFailOracle
        (repairAllDocuments noFailOracle sysIdem).1 =
      ((repairAllDocuments noFailOracle sysIdem).1,
       (⟨0, 0, []⟩ : RepResult)) :=
  ⟨by decide, by decide,
   repair_idempotent_amended sysIdem (by decide) (by decide)⟩

/-- A scan accumulator holding one staged file with known content. -/
def accC5 : ScanAcc :=
  ⟨⟨[nsDir "temp-ab".data],
    [(nsFile "temp-ab".data "nic_proof-1.pdf".data, "CONTENT".data)]⟩,
   [], 0, 0, 0, 0, []⟩

theorem temp_repair_nondestructive_witness :
    truthy (some "/uploads/documents/temp-ab/nic_proof-1.pdf".data) =
      some "/uploads/documents/temp-ab/nic_proof-1.pdf".data ∧
    containsSub tempLit "/uploads/documents/temp-ab/nic_proof-1.pdf".data =
      true ∧
    scanTempMatch "/uploads/documents/temp-ab/nic_proof-1.pdf".data =
      some "nic_proof-1.pdf".data ∧
    accC5.fs.read
        (stripSlash "/uploads/documents/temp-ab/nic_proof-1.pdf".data) =
      some "CONTENT".data ∧
    ((scanField noFailOracle "C1".data accC5 .nic_proof
        (some "/uploads/documents/temp-ab/nic_proof-1.pdf".data)).fs.read
        (stripSlash "/uploads/documents/temp-ab/nic_proof-1.pdf".data) =
      some "CONTENT".data ∧
     (scanField noFailOracle "C1".data accC5 .nic_proof
        (some "/uploads/documents/temp-ab/nic_proof-1.pdf".data)).fs.read
        (nsFile "C1".data "nic_proof-1.pdf".data) = some "CONTENT".data) :=
  ⟨by decide, by decide, by decide, by decide,
   (temp_repair_nondestructive noFailOracle "C1".data accC5 .nic_proof
      (some "/uploads/documents/temp-ab/nic_proof-1.pdf".data)
      "/uploads/documents/temp-ab/nic_proof-1.pdf".data
      "nic_proof-1.pdf".data "CONTENT".data
      (by decide) (by decide) (by decide) (by decide) rfl).1⟩

end Brokerage
